import Mathlib

/-!
# Tic-tac-toe simulation (`src/main.cpp`): board rules and game loop

Shallow embedding of `Board`, the two move producers and the loop of `main`.

* A cell is a `char`; it is embedded as `Char`, with `' '` for Empty.
* `Board()` builds a 3x3 grid and no member function changes its shape, so the
  grid is embedded as a total map `Fin 3 → Fin 3 → Char`.  A subscript computed
  at run time from `int`s (`grid[row][col]` in `is_valid_move`, `make_move`)
  goes through `Board.cell`, which is `none` outside the grid.
-/

namespace TicTacToe

/-- The `Move` record of `main.cpp` (lines 11-15). -/
structure Move where
  row : Int
  col : Int
  symbol : Char
deriving DecidableEq, Repr

/-- The `Board` class: its only data member is the 3x3 `grid`. -/
structure Board where
  grid : Fin 3 → Fin 3 → Char

/-- Constructor `Board()`: every cell is `' '` (line 67). -/
def Board.new : Board := ⟨fun _ _ => ' '⟩

/-- Checked subscript `grid[row][col]` for run-time `int` indices: `none` when the
access would fall outside the 3x3 grid. -/
def Board.cell (b : Board) (row col : Int) : Option Char :=
  if h : 0 ≤ row ∧ row < 3 ∧ 0 ≤ col ∧ col < 3 then
    some (b.grid ⟨row.toNat, by omega⟩ ⟨col.toNat, by omega⟩)
  else none

/-- Member `is_valid_move` (lines 69-71).  The `&&` chain short-circuits, so the
grid is read only after the four range tests passed; `none` would mean an
out-of-range read. -/
def Board.is_valid_move (b : Board) (row col : Int) : Option Bool :=
  if row ≥ 0 then
    if row < 3 then
      if col ≥ 0 then
        if col < 3 then (b.cell row col).map (fun c => c == ' ')
        else some false
      else some false
    else some false
  else some false

/-- Member `make_move` (lines 73-75): `grid[row][col] = symbol`, without any
validation; `none` when the write would fall outside the grid. -/
def Board.make_move (b : Board) (row col : Int) (symbol : Char) : Option Board :=
  if h : 0 ≤ row ∧ row < 3 ∧ 0 ≤ col ∧ col < 3 then
    some ⟨fun i j =>
      if i = ⟨row.toNat, by omega⟩ ∧ j = ⟨col.toNat, by omega⟩ then symbol else b.grid i j⟩
  else none

/-- Member `check_winner` (lines 77-98): the row loop, the column loop, then the
two diagonals; each loop returns at the first index whose test succeeds. -/
def Board.check_winner (b : Board) : Char :=
  match ([0, 1, 2] : List (Fin 3)).find?
      (fun i => b.grid i 0 != ' ' && b.grid i 0 == b.grid i 1 && b.grid i 1 == b.grid i 2) with
  | some i => b.grid i 0
  | none =>
    match ([0, 1, 2] : List (Fin 3)).find?
        (fun j => b.grid 0 j != ' ' && b.grid 0 j == b.grid 1 j && b.grid 1 j == b.grid 2 j) with
    | some j => b.grid 0 j
    | none =>
      if b.grid 0 0 != ' ' && b.grid 0 0 == b.grid 1 1 && b.grid 1 1 == b.grid 2 2 then
        b.grid 0 0
      else if b.grid 0 2 != ' ' && b.grid 0 2 == b.grid 1 1 && b.grid 1 1 == b.grid 2 0 then
        b.grid 0 2
      else ' '

/-- Member `is_full` (lines 100-107): `false` at the first `' '` met while walking
the rows and, inside each row, the cells. -/
def Board.is_full (b : Board) : Bool :=
  !(([0, 1, 2] : List (Fin 3)).any fun i =>
      ([0, 1, 2] : List (Fin 3)).any fun j => b.grid i j == ' ')

/-- Build a board from its nine cells, row by row. -/
def Board.ofRows (c00 c01 c02 c10 c11 c12 c20 c21 c22 : Char) : Board :=
  ⟨fun i j =>
    match i, j with
    | 0, 0 => c00 | 0, 1 => c01 | 0, 2 => c02
    | 1, 0 => c10 | 1, 1 => c11 | 1, 2 => c12
    | 2, 0 => c20 | 2, 1 => c21 | 2, 2 => c22⟩

/-- The nine cells of a board, row by row. -/
def Board.rows (b : Board) : List (List Char) :=
  [[b.grid 0 0, b.grid 0 1, b.grid 0 2], [b.grid 1 0, b.grid 1 1, b.grid 1 2],
   [b.grid 2 0, b.grid 2 1, b.grid 2 2]]

/-! ## Vocabulary of the specification -/

/-- A line of the board: the coordinates of its three cells. -/
abbrev Line := (Fin 3 × Fin 3) × (Fin 3 × Fin 3) × (Fin 3 × Fin 3)

/-- The eight lines: rows 0-2, columns 0-2, main diagonal, anti-diagonal. -/
def lines : List Line :=
  [((0, 0), (0, 1), (0, 2)), ((1, 0), (1, 1), (1, 2)), ((2, 0), (2, 1), (2, 2)),
   ((0, 0), (1, 0), (2, 0)), ((0, 1), (1, 1), (2, 1)), ((0, 2), (1, 2), (2, 2)),
   ((0, 0), (1, 1), (2, 2)), ((0, 2), (1, 1), (2, 0))]

/-- All three cells of line `l` hold the character `s`. -/
def Board.holds (b : Board) (l : Line) (s : Char) : Prop :=
  b.grid l.1.1 l.1.2 = s ∧ b.grid l.2.1.1 l.2.1.2 = s ∧ b.grid l.2.2.1 l.2.2.2 = s

instance (b : Board) (l : Line) (s : Char) : Decidable (b.holds l s) := by
  unfold Board.holds; infer_instance

/-- Line `l` consists of three equal non-Empty cells. -/
def Board.complete (b : Board) (l : Line) : Prop :=
  ∃ s, s ≠ ' ' ∧ b.holds l s

/-- The condition the code tests on the three cells of a line: the first is not
`' '`, it equals the second, and the second equals the third. -/
def Board.test (b : Board) (l : Line) : Prop :=
  b.grid l.1.1 l.1.2 ≠ ' ' ∧ b.grid l.1.1 l.1.2 = b.grid l.2.1.1 l.2.1.2 ∧
    b.grid l.2.1.1 l.2.1.2 = b.grid l.2.2.1 l.2.2.2

instance (b : Board) (l : Line) : Decidable (b.test l) := by
  unfold Board.test; infer_instance

/-- The first line, in scan order, on which the code's test succeeds. -/
def Board.first_line (b : Board) : Option Line :=
  lines.find? fun l => decide (b.test l)

/-- Every cell is Empty, X or O (the cell alphabet of the data model). -/
def Board.symbols_ok (b : Board) : Prop :=
  ∀ i j, b.grid i j = ' ' ∨ b.grid i j = 'X' ∨ b.grid i j = 'O'

/-- The board on which exactly the three cells of `l` hold `s` and every other
cell is Empty. -/
def Board.line_only (l : Line) (s : Char) : Board :=
  ⟨fun i j => if (i, j) = l.1 ∨ (i, j) = l.2.1 ∨ (i, j) = l.2.2 then s else ' '⟩

/-- The board `b` with cell `(i, j)` replaced by `s`. -/
def Board.put (b : Board) (i j : Fin 3) (s : Char) : Board :=
  ⟨fun i1 j1 => if i1 = i ∧ j1 = j then s else b.grid i1 j1⟩

/-- Number of cells of `b` that hold the character `s`. -/
def Board.count (b : Board) (s : Char) : Nat :=
  (Finset.univ.filter fun p : Fin 3 × Fin 3 => b.grid p.1 p.2 = s).card

/-- A move whose symbol is X or O and whose coordinates pass `is_valid_move` on
the board `b`. -/
def Move.valid_on (m : Move) (b : Board) : Prop :=
  (m.symbol = 'X' ∨ m.symbol = 'O') ∧ b.is_valid_move m.row m.col = some true

/-- The opponent's symbol. -/
def other (s : Char) : Char := if s = 'X' then 'O' else 'X'

/-- Apply a sequence of moves, each one checked with `is_valid_move` on the board
it is applied to and then written with `make_move`; `none` as soon as a move is
not valid. -/
def Board.play (b : Board) : List Move → Option Board
  | [] => some b
  | m :: ms =>
    match b.is_valid_move m.row m.col with
    | some true =>
      match b.make_move m.row m.col m.symbol with
      | some b1 => b1.play ms
      | none => none
    | _ => none

/-! ## Producers and the loop of `main` -/

/-- What a call `next()` on a producer coroutine (lines 50-59) amounts to:
the body ran up to its `co_yield` and the move is returned, or the coroutine is
done and `nullopt` is returned, or the body never reaches `co_yield`. -/
inductive Resumed (σ : Type) where
  | yielded (m : Move) (s : σ)
  | done
  | no_return

/-- A producer: from its private state and the board it reads, one `next()`. -/
abbrev Producer (σ : Type) := σ → Board → Resumed σ

/-- The `do ... while (!board.is_valid_move(row, col))` of lines 136-139 and
152-155.  `dis` is the stream of values `dis(gen)` returns, `pos` the number of
values already drawn; each pass draws `row` then `col`.  `fuel` bounds the number
of passes; `none` when no pass within `fuel` is accepted. -/
def sample_loop (board : Board) (dis : Nat → Int) : Nat → Nat → Option (Int × Int × Nat)
  | 0, _ => none
  | fuel + 1, pos =>
    let row := dis pos
    let col := dis (pos + 1)
    match board.is_valid_move row col with
    | some true => some (row, col, pos + 2)
    | some false => sample_loop board dis fuel (pos + 2)
    | none => none

/-- Coroutine `player_X` (lines 129-143): one resumption runs the sampling loop
on the board as it is now and yields `Move{row, col, 'X'}`. -/
def player_X (dis : Nat → Int) (fuel : Nat) : Producer Nat := fun pos board =>
  match sample_loop board dis fuel pos with
  | some (row, col, pos1) => .yielded ⟨row, col, 'X'⟩ pos1
  | none => .no_return

/-- Coroutine `player_O` (lines 145-159). -/
def player_O (dis : Nat → Int) (fuel : Nat) : Producer Nat := fun pos board =>
  match sample_loop board dis fuel pos with
  | some (row, col, pos1) => .yielded ⟨row, col, 'O'⟩ pos1
  | none => .no_return

/-- A producer that yields the listed coordinates in order with a fixed symbol,
and is done when the list is used up. -/
def scripted (symbol : Char) : Producer (List (Int × Int)) := fun s _ =>
  match s with
  | [] => .done
  | (row, col) :: rest => .yielded ⟨row, col, symbol⟩ rest

/-- How `main` leaves its loop. -/
inductive Outcome where
  | winner (symbol : Char)
  | draw
  | no_move
deriving DecidableEq, Repr

/-- The variables of `main` at the head of the `while (true)` loop.  `move_count`
is an `int` that only counts up from 0; it is embedded as a `Nat`. -/
structure Loop (σ : Type) where
  board : Board
  move_count : Nat
  current_player : Char
  coroutine_X : σ
  coroutine_O : σ

/-- The result of one pass through the loop body. -/
inductive Iter (σ : Type) where
  | again (st : Loop σ)
  | exit (o : Outcome) (board : Board) (move_count : Nat)
  | undefined

/-- The checks of lines 191-200 on the board after a move: a winner first, then
a full board; `none` when the loop goes on. -/
def terminal_checks (board : Board) : Option Outcome :=
  let winner := board.check_winner
  if winner != ' ' then some (.winner winner)
  else if board.is_full then some .draw
  else none

/-- The request of line 179: `next()` on the coroutine of the current player. -/
def request {σ : Type} (pX pO : Producer σ) (st : Loop σ) : Resumed σ :=
  if st.current_player = 'X' then pX st.coroutine_X st.board
  else pO st.coroutine_O st.board

/-- One pass through the body of the loop (lines 179-202). -/
def loop_body {σ : Type} (pX pO : Producer σ) (st : Loop σ) : Iter σ :=
  match request pX pO st with
  | .no_return => .undefined
  | .done => .exit .no_move st.board st.move_count
  | .yielded move s =>
    match st.board.make_move move.row move.col move.symbol with
    | none => .undefined
    | some board1 =>
      match terminal_checks board1 with
      | some o => .exit o board1 (st.move_count + 1)
      | none =>
        .again
          { board := board1
            move_count := st.move_count + 1
            current_player := if st.current_player = 'X' then 'O' else 'X'
            coroutine_X := if st.current_player = 'X' then s else st.coroutine_X
            coroutine_O := if st.current_player = 'X' then st.coroutine_O else s }

/-- The variables of `main` when the loop is entered (lines 169-176). -/
def main_init {σ : Type} (sX sO : σ) : Loop σ :=
  { board := Board.new, move_count := 0, current_player := 'X',
    coroutine_X := sX, coroutine_O := sO }

/-- The loop head reached after `n` complete passes, when there is one: the
`(n+1)`-th move is requested exactly when `loop_head .. n` is `some`. -/
def loop_head {σ : Type} (pX pO : Producer σ) (st0 : Loop σ) : Nat → Option (Loop σ)
  | 0 => some st0
  | n + 1 =>
    match loop_head pX pO st0 n with
    | some st =>
      match loop_body pX pO st with
      | .again st1 => some st1
      | _ => none
    | none => none

/-- Run the loop for at most `fuel` passes: the outcome, final board and
`move_count` with which `main` returns, `none` when it has not returned. -/
def run {σ : Type} (pX pO : Producer σ) : Nat → Loop σ → Option (Outcome × Board × Nat)
  | 0, _ => none
  | fuel + 1, st =>
    match loop_body pX pO st with
    | .again st1 => run pX pO fuel st1
    | .exit o board move_count => some (o, board, move_count)
    | .undefined => none

/-- The request made at loop head `st` returns a move that is valid on the
board (as a computable check). -/
def request_valid {σ : Type} (pX pO : Producer σ) (st : Loop σ) : Bool :=
  match request pX pO st with
  | .yielded m _ =>
    decide (m.symbol = 'X' ∨ m.symbol = 'O') && (st.board.is_valid_move m.row m.col == some true)
  | _ => false

/-- What a returned run is compared on: outcome, cells of the final board, `move_count`. -/
def result_view (r : Outcome × Board × Nat) : Outcome × List (List Char) × Nat :=
  (r.1, r.2.1.rows, r.2.2)

/-- A sample stream in which every cell keeps coming back: after any number `k`
of passes of the sampling loop, some later pass draws `(i, j)`. -/
def fair (dis : Nat → Int) : Prop :=
  ∀ (i j : Fin 3) (k : Nat), ∃ k1, k ≤ k1 ∧ dis (2 * k1) = (i.val : Int) ∧
    dis (2 * k1 + 1) = (j.val : Int)

/-- A sample stream that walks through the nine cells over and over:
(0,0), (0,1), (0,2), (1,0), ... -/
def round_robin (n : Nat) : Int :=
  if n % 2 = 0 then ((n / 2 / 3 % 3 : Nat) : Int) else ((n / 2 % 3 : Nat) : Int)

/-- Member `print` (lines 109-121), as the text it writes to `std::cout`. -/
def Board.print (b : Board) : String :=
  let out := "\n"
  let out := ([0, 1, 2] : List (Fin 3)).foldl (fun out i =>
    let out := out ++ " "
    let out := ([0, 1, 2] : List (Fin 3)).foldl (fun out j =>
      let out := out.push (b.grid i j)
      if j < 2 then out ++ " | " else out) out
    let out := out ++ "\n"
    if i < 2 then out ++ "---|---|---\n" else out) out
  out ++ "\n"

/-- The five-line rendering of section 6 of the specification, lines joined by
newlines. -/
def five_lines (b : Board) : String :=
  " " ++ String.singleton (b.grid 0 0) ++ " | " ++ String.singleton (b.grid 0 1) ++ " | "
      ++ String.singleton (b.grid 0 2) ++ "\n" ++
    "---|---|---\n" ++
    " " ++ String.singleton (b.grid 1 0) ++ " | " ++ String.singleton (b.grid 1 1) ++ " | "
      ++ String.singleton (b.grid 1 2) ++ "\n" ++
    "---|---|---\n" ++
    " " ++ String.singleton (b.grid 2 0) ++ " | " ++ String.singleton (b.grid 2 1) ++ " | "
      ++ String.singleton (b.grid 2 2)

/-- Every request of the run from `st0` that returns a move returns one that
carries the symbol of the current player and passes `is_valid_move` on the board
at that moment. -/
def disciplined {σ : Type} (pX pO : Producer σ) (st0 : Loop σ) : Prop :=
  ∀ n st m s, loop_head pX pO st0 n = some st → request pX pO st = .yielded m s →
    m.symbol = st.current_player ∧ st.board.is_valid_move m.row m.col = some true

/-- The boards that arise in the run from `st0`: the board at a loop head, or the
board with which the run returns. -/
def arises {σ : Type} (pX pO : Producer σ) (st0 : Loop σ) (b : Board) : Prop :=
  (∃ n st, loop_head pX pO st0 n = some st ∧ st.board = b) ∨
    (∃ fuel o k, run pX pO fuel st0 = some (o, b, k))

/-- The cell counts of a board reached by `k` alternating moves, X first, each on
an Empty cell. -/
def tally (b : Board) (k : Nat) : Prop :=
  b.count 'X' = (k + 1) / 2 ∧ b.count 'O' = k / 2 ∧ b.count ' ' + k = 9 ∧ b.symbols_ok

/-- The three cells of a line, as a set. -/
def Line.cells (l : Line) : Finset (Fin 3 × Fin 3) := {l.1, l.2.1, l.2.2}

/-- The scan of `check_winner` run over the lines in the order given by `order`:
the first cell of the first line that passes the test, `' '` when none does. -/
def Board.scan (b : Board) (order : List Line) : Char :=
  match order.find? (fun l => decide (b.test l)) with
  | some l => b.grid l.1.1 l.1.2
  | none => ' '

/-- All complete lines of the board are held by one and the same symbol. -/
def Board.one_symbol (b : Board) : Prop :=
  ∀ l1 ∈ lines, ∀ l2 ∈ lines, ∀ t1 t2 : Char, t1 ≠ ' ' → t2 ≠ ' ' →
    b.holds l1 t1 → b.holds l2 t2 → t1 = t2

/-- A sample stream that replays a list of values, then draws 0 for ever. -/
def replay (l : List Int) : Nat → Int := fun n => l.getD n 0

/-! ## `check_winner` as one chain of tests -/

theorem check_winner_scan_bool (b : Board) :
    b.check_winner =
      if (b.grid 0 0 != ' ' && b.grid 0 0 == b.grid 0 1 && b.grid 0 1 == b.grid 0 2) then b.grid 0 0
      else if (b.grid 1 0 != ' ' && b.grid 1 0 == b.grid 1 1 && b.grid 1 1 == b.grid 1 2) then b.grid 1 0
      else if (b.grid 2 0 != ' ' && b.grid 2 0 == b.grid 2 1 && b.grid 2 1 == b.grid 2 2) then b.grid 2 0
      else if (b.grid 0 0 != ' ' && b.grid 0 0 == b.grid 1 0 && b.grid 1 0 == b.grid 2 0) then b.grid 0 0
      else if (b.grid 0 1 != ' ' && b.grid 0 1 == b.grid 1 1 && b.grid 1 1 == b.grid 2 1) then b.grid 0 1
      else if (b.grid 0 2 != ' ' && b.grid 0 2 == b.grid 1 2 && b.grid 1 2 == b.grid 2 2) then b.grid 0 2
      else if (b.grid 0 0 != ' ' && b.grid 0 0 == b.grid 1 1 && b.grid 1 1 == b.grid 2 2) then b.grid 0 0
      else if (b.grid 0 2 != ' ' && b.grid 0 2 == b.grid 1 1 && b.grid 1 1 == b.grid 2 0) then b.grid 0 2
      else ' ' := by
  simp only [Board.check_winner, List.find?]
  generalize (b.grid 0 0 != ' ' && b.grid 0 0 == b.grid 0 1 && b.grid 0 1 == b.grid 0 2) = r0
  generalize (b.grid 1 0 != ' ' && b.grid 1 0 == b.grid 1 1 && b.grid 1 1 == b.grid 1 2) = r1
  generalize (b.grid 2 0 != ' ' && b.grid 2 0 == b.grid 2 1 && b.grid 2 1 == b.grid 2 2) = r2
  generalize (b.grid 0 0 != ' ' && b.grid 0 0 == b.grid 1 0 && b.grid 1 0 == b.grid 2 0) = c0
  generalize (b.grid 0 1 != ' ' && b.grid 0 1 == b.grid 1 1 && b.grid 1 1 == b.grid 2 1) = c1
  generalize (b.grid 0 2 != ' ' && b.grid 0 2 == b.grid 1 2 && b.grid 1 2 == b.grid 2 2) = c2
  cases r0 <;> cases r1 <;> cases r2 <;> cases c0 <;> cases c1 <;> cases c2 <;> rfl

theorem check_winner_scan (b : Board) :
    b.check_winner =
      if b.test ((0, 0), (0, 1), (0, 2)) then b.grid 0 0
      else if b.test ((1, 0), (1, 1), (1, 2)) then b.grid 1 0
      else if b.test ((2, 0), (2, 1), (2, 2)) then b.grid 2 0
      else if b.test ((0, 0), (1, 0), (2, 0)) then b.grid 0 0
      else if b.test ((0, 1), (1, 1), (2, 1)) then b.grid 0 1
      else if b.test ((0, 2), (1, 2), (2, 2)) then b.grid 0 2
      else if b.test ((0, 0), (1, 1), (2, 2)) then b.grid 0 0
      else if b.test ((0, 2), (1, 1), (2, 0)) then b.grid 0 2
      else ' ' := by
  rw [check_winner_scan_bool]
  simp only [Board.test, bne_iff_ne, beq_iff_eq, Bool.and_eq_true, ne_eq, and_assoc]

theorem check_winner_eq_first_line (b : Board) :
    b.check_winner =
      match b.first_line with
      | some l => b.grid l.1.1 l.1.2
      | none => ' ' := by
  rw [check_winner_scan]
  simp only [Board.first_line, lines, List.find?]
  by_cases h0 : b.test ((0, 0), (0, 1), (0, 2))
  · simp only [h0, if_true, decide_True]
  by_cases h1 : b.test ((1, 0), (1, 1), (1, 2))
  · simp only [h0, h1, if_true, if_false, decide_True, decide_False]
  by_cases h2 : b.test ((2, 0), (2, 1), (2, 2))
  · simp only [h0, h1, h2, if_true, if_false, decide_True, decide_False]
  by_cases h3 : b.test ((0, 0), (1, 0), (2, 0))
  · simp only [h0, h1, h2, h3, if_true, if_false, decide_True, decide_False]
  by_cases h4 : b.test ((0, 1), (1, 1), (2, 1))
  · simp only [h0, h1, h2, h3, h4, if_true, if_false, decide_True, decide_False]
  by_cases h5 : b.test ((0, 2), (1, 2), (2, 2))
  · simp only [h0, h1, h2, h3, h4, h5, if_true, if_false, decide_True, decide_False]
  by_cases h6 : b.test ((0, 0), (1, 1), (2, 2))
  · simp only [h0, h1, h2, h3, h4, h5, h6, if_true, if_false, decide_True, decide_False]
  by_cases h7 : b.test ((0, 2), (1, 1), (2, 0))
  · simp only [h0, h1, h2, h3, h4, h5, h6, h7, if_true, if_false, decide_True, decide_False]
  · simp only [h0, h1, h2, h3, h4, h5, h6, h7, if_true, if_false, decide_True, decide_False]

theorem complete_iff_test (b : Board) (l : Line) : b.complete l ↔ b.test l := by
  unfold Board.complete Board.holds Board.test
  constructor
  · rintro ⟨s, hs, h1, h2, h3⟩
    rw [h1, h2, h3]
    exact ⟨hs, rfl, rfl⟩
  · rintro ⟨h1, h2, h3⟩
    exact ⟨_, h1, rfl, h2.symm, by rw [← h3, ← h2]⟩

theorem first_line_none_iff (b : Board) :
    b.first_line = none ↔ ∀ l ∈ lines, ¬ b.complete l := by
  simp [Board.first_line, List.find?_eq_none, complete_iff_test]

theorem first_line_some {b : Board} {l : Line} (h : b.first_line = some l) :
    l ∈ lines ∧ b.test l := by
  unfold Board.first_line at h
  exact ⟨List.mem_of_find?_eq_some h, by simpa using List.find?_some h⟩

theorem check_winner_blank_iff (b : Board) :
    b.check_winner = ' ' ↔ ∀ l ∈ lines, ¬ b.complete l := by
  rw [check_winner_eq_first_line, ← first_line_none_iff]
  cases h : b.first_line with
  | none => simp
  | some l =>
    have := (first_line_some h).2.1
    simpa using this

/-- C1: `check_winner` returns `' '` exactly when none of the eight lines consists
of three equal non-Empty cells; in particular it returns `' '` on the empty
board. -/
theorem check_winner_empty_iff :
    (∀ b : Board, b.check_winner = ' ' ↔ ∀ l ∈ lines, ¬ b.complete l) ∧
      Board.new.check_winner = ' ' :=
  ⟨check_winner_blank_iff, by decide⟩

theorem other_ne (s : Char) (hs : s = 'X' ∨ s = 'O') : other s ≠ s ∧ other s ≠ ' ' := by
  rcases hs with rfl | rfl <;> decide

theorem eq_or_other (s v : Char) (hs : s = 'X' ∨ s = 'O') (hv : v = 'X' ∨ v = 'O') :
    v = s ∨ v = other s := by
  rcases hs with rfl | rfl <;> rcases hv with rfl | rfl <;> decide

theorem check_winner_of_holds (b : Board) (l : Line) (s : Char) (hl : l ∈ lines)
    (hs : s = 'X' ∨ s = 'O') (hb : b.symbols_ok) (h : b.holds l s)
    (hno : ∀ l1 ∈ lines, ¬ b.holds l1 (other s)) : b.check_winner = s := by
  have hsne : s ≠ ' ' := by rcases hs with rfl | rfl <;> decide
  rw [check_winner_eq_first_line]
  cases hf : b.first_line with
  | none =>
    exact absurd ⟨s, hsne, h⟩ ((first_line_none_iff b).1 hf l hl)
  | some l0 =>
    obtain ⟨hl0, hne, h12, h23⟩ := first_line_some hf
    show b.grid l0.1.1 l0.1.2 = s
    have hv : b.grid l0.1.1 l0.1.2 = 'X' ∨ b.grid l0.1.1 l0.1.2 = 'O' := by
      rcases hb l0.1.1 l0.1.2 with h0 | h0
      · exact absurd h0 hne
      · exact h0
    rcases eq_or_other s _ hs hv with h0 | h0
    · exact h0
    · exact absurd ⟨h0, by rw [← h12]; exact h0, by rw [← h23, ← h12]; exact h0⟩ (hno l0 hl0)

/-- C2: for each of the eight lines `l` and each symbol `s` among X and O, on
every board (cells Empty, X or O) whose three cells of `l` hold `s` and on which
no line is fully held by the other symbol, `check_winner` returns `s`; in
particular it does on the board where exactly the cells of `l` hold `s`. -/
theorem check_winner_each_line (l : Line) (s : Char) (hl : l ∈ lines)
    (hs : s = 'X' ∨ s = 'O') :
    (∀ b : Board, b.symbols_ok → b.holds l s → (∀ l1 ∈ lines, ¬ b.holds l1 (other s)) →
        b.check_winner = s) ∧
      (Board.line_only l s).check_winner = s := by
  refine ⟨fun b hb h hno => check_winner_of_holds b l s hl hs hb h hno, ?_⟩
  have hsne : s ≠ ' ' := by rcases hs with rfl | rfl <;> decide
  apply check_winner_of_holds _ l s hl hs
  · intro i j
    simp only [Board.line_only]
    split_ifs
    · exact Or.inr hs
    · exact Or.inl rfl
  · simp [Board.holds, Board.line_only]
  · intro l1 _ h1
    have h2 := h1.1
    simp only [Board.line_only] at h2
    split_ifs at h2
    · exact (other_ne s hs).1 h2.symm
    · exact (other_ne s hs).2 h2.symm

set_option maxRecDepth 8000 in
theorem check_winner_each_line_witness :
    (Board.ofRows 'O' 'X' ' ' 'O' 'X' ' ' ' ' 'X' 'O').check_winner = 'X' ∧
      (Board.line_only ((0, 1), (1, 1), (2, 1)) 'X').check_winner = 'X' :=
  ⟨(check_winner_each_line ((0, 1), (1, 1), (2, 1)) 'X' (by decide) (by decide)).1
      (Board.ofRows 'O' 'X' ' ' 'O' 'X' ' ' ' ' 'X' 'O') (by unfold Board.symbols_ok; decide)
      (by decide) (by decide),
    (check_winner_each_line ((0, 1), (1, 1), (2, 1)) 'X' (by decide) (by decide)).2⟩

/-! ## Subscripts -/

theorem put_grid (b : Board) (i j i1 j1 : Fin 3) (s : Char) :
    (b.put i j s).grid i1 j1 = if i1 = i ∧ j1 = j then s else b.grid i1 j1 := rfl

theorem cell_in_range (b : Board) (row col : Int)
    (h : 0 ≤ row ∧ row < 3 ∧ 0 ≤ col ∧ col < 3) :
    b.cell row col = some (b.grid ⟨row.toNat, by omega⟩ ⟨col.toNat, by omega⟩) := by
  simp only [Board.cell, dif_pos h]

theorem cell_fin (b : Board) (i j : Fin 3) :
    b.cell (i.val : Int) (j.val : Int) = some (b.grid i j) := by
  have hi := i.isLt
  have hj := j.isLt
  rw [cell_in_range b _ _ ⟨by omega, by omega, by omega, by omega⟩]
  simp

theorem cell_eq_some_iff (b : Board) (row col : Int) (c : Char) :
    b.cell row col = some c ↔
      ∃ i j : Fin 3, (i.val : Int) = row ∧ (j.val : Int) = col ∧ b.grid i j = c := by
  constructor
  · intro h
    by_cases hr : 0 ≤ row ∧ row < 3 ∧ 0 ≤ col ∧ col < 3
    · rw [cell_in_range b row col hr] at h
      refine ⟨⟨row.toNat, by omega⟩, ⟨col.toNat, by omega⟩, ?_, ?_, by simpa using h⟩
      · simp only [Int.toNat_of_nonneg hr.1]
      · simp only [Int.toNat_of_nonneg hr.2.2.1]
    · simp [Board.cell, dif_neg hr] at h
  · rintro ⟨i, j, rfl, rfl, rfl⟩
    exact cell_fin b i j

theorem is_valid_move_fin (b : Board) (i j : Fin 3) :
    b.is_valid_move (i.val : Int) (j.val : Int) = some (b.grid i j == ' ') := by
  have hi := i.isLt
  have hj := j.isLt
  unfold Board.is_valid_move
  rw [if_pos (by omega), if_pos (by omega), if_pos (by omega), if_pos (by omega), cell_fin]
  rfl

theorem is_valid_move_out (b : Board) (row col : Int)
    (h : ¬ (0 ≤ row ∧ row < 3 ∧ 0 ≤ col ∧ col < 3)) :
    b.is_valid_move row col = some false := by
  unfold Board.is_valid_move
  split_ifs <;> first | rfl | (exfalso; omega)

theorem is_valid_move_true_iff (b : Board) (row col : Int) :
    b.is_valid_move row col = some true ↔
      ∃ i j : Fin 3, (i.val : Int) = row ∧ (j.val : Int) = col ∧ b.grid i j = ' ' := by
  constructor
  · intro h
    by_cases hr : 0 ≤ row ∧ row < 3 ∧ 0 ≤ col ∧ col < 3
    · refine ⟨⟨row.toNat, by omega⟩, ⟨col.toNat, by omega⟩, ?_, ?_, ?_⟩
      · simp only [Int.toNat_of_nonneg hr.1]
      · simp only [Int.toNat_of_nonneg hr.2.2.1]
      · have h2 := is_valid_move_fin b ⟨row.toNat, by omega⟩ ⟨col.toNat, by omega⟩
        simp only [Int.toNat_of_nonneg hr.1, Int.toNat_of_nonneg hr.2.2.1] at h2
        rw [h] at h2
        simpa using h2.symm
    · rw [is_valid_move_out b row col hr] at h
      simp at h
  · rintro ⟨i, j, rfl, rfl, h⟩
    rw [is_valid_move_fin, h]
    rfl

theorem make_move_fin (b : Board) (i j : Fin 3) (s : Char) :
    b.make_move (i.val : Int) (j.val : Int) s = some (b.put i j s) := by
  have hi := i.isLt
  have hj := j.isLt
  unfold Board.make_move Board.put
  rw [dif_pos ⟨by omega, by omega, by omega, by omega⟩]
  simp

/-- C3: `is_valid_move(row, col)` is defined for every pair of integers and is
true exactly when both coordinates are in `[0,3)` and the cell is Empty.  It is a
`const` member, embedded as a function that returns only the answer, so the board
is the same after the query. -/
theorem is_valid_move_spec (b : Board) (row col : Int) :
    (∃ v, b.is_valid_move row col = some v) ∧
      (b.is_valid_move row col = some true ↔
        0 ≤ row ∧ row < 3 ∧ 0 ≤ col ∧ col < 3 ∧ b.cell row col = some ' ') := by
  constructor
  · by_cases hr : 0 ≤ row ∧ row < 3 ∧ 0 ≤ col ∧ col < 3
    · have h2 := is_valid_move_fin b ⟨row.toNat, by omega⟩ ⟨col.toNat, by omega⟩
      simp only [Int.toNat_of_nonneg hr.1, Int.toNat_of_nonneg hr.2.2.1] at h2
      exact ⟨_, h2⟩
    · exact ⟨_, is_valid_move_out b row col hr⟩
  · rw [is_valid_move_true_iff, cell_eq_some_iff]
    constructor
    · rintro ⟨i, j, rfl, rfl, h⟩
      have hi := i.isLt
      have hj := j.isLt
      exact ⟨by omega, by omega, by omega, by omega, i, j, rfl, rfl, h⟩
    · rintro ⟨-, -, -, -, h⟩
      exact h

/-- C4: for in-range `(row, col)`, `make_move(row, col, s)` succeeds, the target
cell then holds `s` and every other cell keeps its value, whatever the target
cell held before. -/
theorem make_move_frame (b : Board) (row col : Int) (s : Char)
    (hrow : 0 ≤ row ∧ row < 3) (hcol : 0 ≤ col ∧ col < 3) :
    ∃ b1, b.make_move row col s = some b1 ∧ b1.cell row col = some s ∧
      ∀ i j : Fin 3, ((i.val : Int) ≠ row ∨ (j.val : Int) ≠ col) → b1.grid i j = b.grid i j := by
  obtain ⟨i, hi⟩ : ∃ i : Fin 3, (i.val : Int) = row :=
    ⟨⟨row.toNat, by omega⟩, by simp only [Int.toNat_of_nonneg hrow.1]⟩
  obtain ⟨j, hj⟩ : ∃ j : Fin 3, (j.val : Int) = col :=
    ⟨⟨col.toNat, by omega⟩, by simp only [Int.toNat_of_nonneg hcol.1]⟩
  subst hi hj
  refine ⟨_, make_move_fin b i j s, ?_, ?_⟩
  · rw [cell_fin]; simp [put_grid]
  · intro i1 j1 h
    have : ¬ (i1 = i ∧ j1 = j) := by
      rintro ⟨rfl, rfl⟩
      simp at h
    simp only [put_grid, if_neg this]

theorem make_move_frame_witness :
    ∃ b1, (Board.ofRows 'X' ' ' ' ' ' ' 'O' ' ' ' ' ' ' ' ').make_move 1 1 'X' = some b1 ∧
      b1.cell 1 1 = some 'X' ∧
      ∀ i j : Fin 3, ((i.val : Int) ≠ 1 ∨ (j.val : Int) ≠ 1) →
        b1.grid i j = (Board.ofRows 'X' ' ' ' ' ' ' 'O' ' ' ' ' ' ' ' ').grid i j :=
  make_move_frame _ 1 1 'X' (by decide) (by decide)

theorem is_full_eq_true_iff (b : Board) :
    b.is_full = true ↔ ∀ i j : Fin 3, b.grid i j ≠ ' ' := by
  simp only [Board.is_full, Fin.forall_fin_succ, Fin.forall_fin_zero_pi]
  simp [Fin.forall_fin_succ]

/-- C6: `is_full` is true exactly when none of the nine cells is `' '`, and so
false as soon as one cell is `' '`. -/
theorem is_full_spec (b : Board) :
    (b.is_full = true ↔ ∀ i j : Fin 3, b.grid i j ≠ ' ') ∧
      (b.is_full = false ↔ ∃ i j : Fin 3, b.grid i j = ' ') := by
  refine ⟨is_full_eq_true_iff b, ?_⟩
  rw [← Bool.not_eq_true, is_full_eq_true_iff]
  push_neg
  rfl

/-! ## Sequences of validated moves -/

theorem rows_injective {a b : Board} (h : a.rows = b.rows) : a = b := by
  cases a with
  | mk f =>
    cases b with
    | mk g =>
      simp only [Board.rows, List.cons.injEq, and_true] at h
      obtain ⟨⟨h00, h01, h02⟩, ⟨h10, h11, h12⟩, h20, h21, h22⟩ := h
      simp only [Board.mk.injEq]
      funext i j
      fin_cases i <;> fin_cases j <;> assumption

theorem eq_some_of_rows {o : Option Board} {b : Board}
    (h : o.map Board.rows = some b.rows) : o = some b := by
  cases o with
  | none => simp at h
  | some a =>
    simp only [Option.map_some', Option.some.injEq] at h
    rw [rows_injective h]

theorem play_cons {b b2 : Board} {m : Move} {ms : List Move}
    (h : b.play (m :: ms) = some b2) :
    ∃ i j : Fin 3, (i.val : Int) = m.row ∧ (j.val : Int) = m.col ∧ b.grid i j = ' ' ∧
      (b.put i j m.symbol).play ms = some b2 := by
  unfold Board.play at h
  cases hv : b.is_valid_move m.row m.col with
  | none => simp [hv] at h
  | some v =>
    cases v with
    | false => simp [hv] at h
    | true =>
      obtain ⟨i, j, hi, hj, hc⟩ := (is_valid_move_true_iff b m.row m.col).1 hv
      refine ⟨i, j, hi, hj, hc, ?_⟩
      simp only [hv] at h
      rw [← hi, ← hj, make_move_fin] at h
      exact h

theorem play_keep (ms : List Move) :
    ∀ b b2 : Board, b.play ms = some b2 →
      ∀ i j : Fin 3, b.grid i j ≠ ' ' → b2.grid i j = b.grid i j := by
  induction ms with
  | nil =>
    intro b b2 h i j _
    simp only [Board.play, Option.some.injEq] at h
    rw [h]
  | cons m ms ih =>
    intro b b2 h i j hne
    obtain ⟨i0, j0, -, -, hc, hp⟩ := play_cons h
    have hij : ¬ (i = i0 ∧ j = j0) := by
      rintro ⟨rfl, rfl⟩
      exact hne hc
    have h1 := ih _ b2 hp i j (by simpa only [put_grid, if_neg hij] using hne)
    simpa only [put_grid, if_neg hij] using h1

theorem play_nonempty_iff (ms : List Move) :
    ∀ b b2 : Board, (∀ m ∈ ms, m.symbol ≠ ' ') → b.play ms = some b2 →
      ∀ i j : Fin 3, b2.grid i j ≠ ' ' ↔
        (b.grid i j ≠ ' ' ∨ ∃ m ∈ ms, m.row = (i.val : Int) ∧ m.col = (j.val : Int)) := by
  induction ms with
  | nil =>
    intro b b2 _ h i j
    simp only [Board.play, Option.some.injEq] at h
    simp [h]
  | cons m ms ih =>
    intro b b2 hs h i j
    obtain ⟨i0, j0, hi0, hj0, hc, hp⟩ := play_cons h
    rw [ih _ b2 (fun m1 hm1 => hs m1 (List.mem_cons_of_mem _ hm1)) hp i j]
    by_cases hij : i = i0 ∧ j = j0
    · obtain ⟨rfl, rfl⟩ := hij
      have hm : m.symbol ≠ ' ' := hs m (List.mem_cons_self _ _)
      simp [put_grid, hm, hi0, hj0]
    · simp only [put_grid, if_neg hij]
      have hne : ¬ (m.row = (i.val : Int) ∧ m.col = (j.val : Int)) := by
        rintro ⟨h1, h2⟩
        apply hij
        constructor
        · apply Fin.ext; omega
        · apply Fin.ext; omega
      simp [hne]

theorem play_append (ms1 ms2 : List Move) :
    ∀ b : Board, b.play (ms1 ++ ms2) = (b.play ms1).bind fun b1 => b1.play ms2 := by
  induction ms1 with
  | nil => intro b; simp [Board.play]
  | cons m ms ih =>
    intro b
    simp only [List.cons_append, Board.play]
    cases b.is_valid_move m.row m.col with
    | none => simp
    | some v =>
      cases v with
      | false => simp
      | true =>
        cases b.make_move m.row m.col m.symbol with
        | none => simp
        | some b1 => simpa using ih b1

/-- C5: along a sequence of moves from the empty board, each one valid on the
board it is applied to (symbols X or O), a cell that is non-Empty after a prefix
holds the same symbol after the whole sequence, and a cell is non-Empty at the
end exactly when some move of the sequence targeted it. -/
theorem play_never_overwrites (ms1 ms2 : List Move) (b1 b2 : Board)
    (hsym : ∀ m ∈ ms1 ++ ms2, m.symbol = 'X' ∨ m.symbol = 'O')
    (h1 : Board.new.play ms1 = some b1) (h2 : b1.play ms2 = some b2) :
    Board.new.play (ms1 ++ ms2) = some b2 ∧
      (∀ i j : Fin 3, b1.grid i j ≠ ' ' → b2.grid i j = b1.grid i j) ∧
      (∀ i j : Fin 3, b2.grid i j ≠ ' ' ↔
        ∃ m ∈ ms1 ++ ms2, m.row = (i.val : Int) ∧ m.col = (j.val : Int)) := by
  have h12 : Board.new.play (ms1 ++ ms2) = some b2 := by
    rw [play_append, h1]; exact h2
  refine ⟨h12, play_keep ms2 b1 b2 h2, fun i j => ?_⟩
  have hne : ∀ m ∈ ms1 ++ ms2, m.symbol ≠ ' ' := by
    intro m hm
    rcases hsym m hm with h | h <;> rw [h] <;> decide
  rw [play_nonempty_iff _ _ _ hne h12 i j]
  simp [Board.new]

theorem play_never_overwrites_witness :
    Board.new.play ([⟨0, 0, 'X'⟩, ⟨1, 1, 'O'⟩] ++ [⟨0, 1, 'X'⟩])
        = some (Board.ofRows 'X' 'X' ' ' ' ' 'O' ' ' ' ' ' ' ' ') ∧
      (∀ i j : Fin 3, (Board.ofRows 'X' ' ' ' ' ' ' 'O' ' ' ' ' ' ' ' ').grid i j ≠ ' ' →
        (Board.ofRows 'X' 'X' ' ' ' ' 'O' ' ' ' ' ' ' ' ').grid i j
          = (Board.ofRows 'X' ' ' ' ' ' ' 'O' ' ' ' ' ' ' ' ').grid i j) ∧
      (∀ i j : Fin 3, (Board.ofRows 'X' 'X' ' ' ' ' 'O' ' ' ' ' ' ' ' ').grid i j ≠ ' ' ↔
        ∃ m ∈ ([⟨0, 0, 'X'⟩, ⟨1, 1, 'O'⟩] ++ [⟨0, 1, 'X'⟩] : List Move),
          m.row = (i.val : Int) ∧ m.col = (j.val : Int)) :=
  play_never_overwrites [⟨0, 0, 'X'⟩, ⟨1, 1, 'O'⟩] [⟨0, 1, 'X'⟩] _ _
    (by decide) (eq_some_of_rows (by decide)) (eq_some_of_rows (by decide))

/-! ## Counting cells -/

theorem count_put (b : Board) (i j : Fin 3) (s : Char) (h : b.grid i j = ' ') (hs : s ≠ ' ') :
    (b.put i j s).count ' ' + 1 = b.count ' ' := by
  unfold Board.count
  have hset : (Finset.univ.filter fun p : Fin 3 × Fin 3 => b.grid p.1 p.2 = ' ') =
      insert (i, j) (Finset.univ.filter fun p : Fin 3 × Fin 3 => (b.put i j s).grid p.1 p.2 = ' ') := by
    ext ⟨i1, j1⟩
    simp only [Finset.mem_filter, Finset.mem_univ, true_and, Finset.mem_insert, Prod.mk.injEq,
      put_grid]
    by_cases hij : i1 = i ∧ j1 = j
    · obtain ⟨rfl, rfl⟩ := hij
      simp [h]
    · simp [hij]
  rw [hset, Finset.card_insert_of_not_mem]
  simp [put_grid, hs]

theorem count_le (b : Board) (s : Char) : b.count s ≤ 9 := by
  unfold Board.count
  calc _ ≤ (Finset.univ : Finset (Fin 3 × Fin 3)).card := Finset.card_filter_le _ _
    _ = 9 := by decide

theorem is_full_iff_count (b : Board) : b.is_full = true ↔ b.count ' ' = 0 := by
  rw [is_full_eq_true_iff]
  unfold Board.count
  rw [Finset.card_eq_zero, Finset.filter_eq_empty_iff]
  constructor
  · intro h p _
    exact h p.1 p.2
  · intro h i j
    exact h (Finset.mem_univ (i, j))

theorem count_new : Board.new.count ' ' = 9 := by decide

/-! ## The loop -/

theorem request_valid_iff {σ : Type} (pX pO : Producer σ) (st : Loop σ) :
    request_valid pX pO st = true ↔
      ∃ m s, request pX pO st = .yielded m s ∧ m.valid_on st.board := by
  unfold request_valid Move.valid_on
  cases request pX pO st with
  | yielded m s => simp
  | done => simp
  | no_return => simp

theorem terminal_checks_none {b : Board} (h : terminal_checks b = none) :
    b.check_winner = ' ' ∧ b.is_full = false := by
  unfold terminal_checks at h
  by_cases hw : b.check_winner = ' '
  · refine ⟨hw, ?_⟩
    cases hf : b.is_full with
    | false => rfl
    | true => simp [hw, hf] at h
  · simp [hw] at h

theorem terminal_checks_some {b : Board} {o : Outcome} (h : terminal_checks b = some o) :
    (o = .winner b.check_winner ∧ b.check_winner ≠ ' ') ∨
      (o = .draw ∧ b.check_winner = ' ' ∧ b.is_full = true) := by
  unfold terminal_checks at h
  by_cases hw : b.check_winner = ' '
  · right
    cases hf : b.is_full with
    | false => simp [hw, hf] at h
    | true =>
      simp [hw, hf] at h
      exact ⟨h.symm, hw, rfl⟩
  · left
    simp [hw] at h
    exact ⟨h.symm, hw⟩

/-- The loop body once the request has returned a move with in-grid coordinates. -/
theorem loop_body_yielded {σ : Type} (pX pO : Producer σ) (st : Loop σ) (m : Move) (s : σ)
    (i j : Fin 3) (hreq : request pX pO st = .yielded m s)
    (hi : (i.val : Int) = m.row) (hj : (j.val : Int) = m.col) :
    loop_body pX pO st =
      match terminal_checks (st.board.put i j m.symbol) with
      | some o => .exit o (st.board.put i j m.symbol) (st.move_count + 1)
      | none =>
        .again
          { board := st.board.put i j m.symbol
            move_count := st.move_count + 1
            current_player := if st.current_player = 'X' then 'O' else 'X'
            coroutine_X := if st.current_player = 'X' then s else st.coroutine_X
            coroutine_O := if st.current_player = 'X' then st.coroutine_O else s } := by
  unfold loop_body
  rw [hreq]
  simp only
  rw [← hi, ← hj, make_move_fin]

theorem loop_body_again {σ : Type} {pX pO : Producer σ} {st st1 : Loop σ}
    (h : loop_body pX pO st = .again st1) :
    st1.board.check_winner = ' ' ∧ st1.board.is_full = false := by
  unfold loop_body at h
  cases hreq : request pX pO st with
  | no_return => simp [hreq] at h
  | done => simp [hreq] at h
  | yielded m s =>
    simp only [hreq] at h
    cases hm : st.board.make_move m.row m.col m.symbol with
    | none => simp [hm] at h
    | some b1 =>
      simp only [hm] at h
      cases ht : terminal_checks b1 with
      | some o => simp [ht] at h
      | none =>
        simp only [ht, Iter.again.injEq] at h
        rw [← h]
        exact terminal_checks_none ht

theorem loop_head_succ {σ : Type} (pX pO : Producer σ) (st0 : Loop σ) (n : Nat) (st1 : Loop σ) :
    loop_head pX pO st0 (n + 1) = some st1 ↔
      ∃ st, loop_head pX pO st0 n = some st ∧ loop_body pX pO st = .again st1 := by
  simp only [loop_head]
  cases loop_head pX pO st0 n with
  | none => simp
  | some st =>
    cases hb : loop_body pX pO st with
    | again st2 => simp [hb]
    | exit o b k => simp [hb]
    | undefined => simp [hb]

theorem loop_head_none_succ {σ : Type} (pX pO : Producer σ) (st0 : Loop σ) (n : Nat)
    (h : loop_head pX pO st0 n = none) : loop_head pX pO st0 (n + 1) = none := by
  simp only [loop_head, h]

theorem loop_head_none_le {σ : Type} (pX pO : Producer σ) (st0 : Loop σ) (n k : Nat)
    (h : loop_head pX pO st0 n = none) (hk : n ≤ k) : loop_head pX pO st0 k = none := by
  induction k with
  | zero =>
    have : n = 0 := by omega
    subst this
    exact h
  | succ k ih =>
    by_cases hn : n = k + 1
    · subst hn; exact h
    · exact loop_head_none_succ pX pO st0 k (ih (by omega))

theorem loop_head_front {σ : Type} (pX pO : Producer σ) (st0 : Loop σ) (n : Nat) :
    loop_head pX pO st0 (n + 1) =
      match loop_body pX pO st0 with
      | .again st1 => loop_head pX pO st1 n
      | _ => none := by
  induction n with
  | zero =>
    simp only [loop_head]
  | succ n ih =>
    rw [loop_head, ih]
    cases loop_body pX pO st0 with
    | again st1 => simp only [loop_head]
    | exit o b k => rfl
    | undefined => rfl

theorem run_of_head {σ : Type} (pX pO : Producer σ) (n : Nat) :
    ∀ (st0 st : Loop σ) (o : Outcome) (b : Board) (k : Nat),
      loop_head pX pO st0 n = some st → loop_body pX pO st = .exit o b k →
      ∀ fuel, n + 1 ≤ fuel → run pX pO fuel st0 = some (o, b, k) := by
  induction n with
  | zero =>
    intro st0 st o b k h hb fuel hf
    simp only [loop_head, Option.some.injEq] at h
    subst h
    obtain ⟨f, rfl⟩ : ∃ f, fuel = f + 1 := ⟨fuel - 1, by omega⟩
    simp only [run, hb]
  | succ n ih =>
    intro st0 st o b k h hb fuel hf
    obtain ⟨f, rfl⟩ : ∃ f, fuel = f + 1 := ⟨fuel - 1, by omega⟩
    rw [loop_head_front] at h
    cases hb0 : loop_body pX pO st0 with
    | again st1 =>
      simp only [hb0] at h
      simp only [run, hb0]
      exact ih st1 st o b k h hb f (by omega)
    | exit o1 b1 k1 => simp [hb0] at h
    | undefined => simp [hb0] at h

/-- Along a run whose requests all return valid moves, the `n`-th loop head has
`n` non-Empty cells and `move_count = n`. -/
theorem loop_head_count {σ : Type} (pX pO : Producer σ) (sX sO : σ)
    (hvalid : ∀ n st, loop_head pX pO (main_init sX sO) n = some st →
      ∃ m s, request pX pO st = .yielded m s ∧ m.valid_on st.board) :
    ∀ n st, loop_head pX pO (main_init sX sO) n = some st →
      st.board.count ' ' + n = 9 ∧ st.move_count = n := by
  intro n
  induction n with
  | zero =>
    intro st h
    simp only [loop_head, Option.some.injEq] at h
    subst h
    exact ⟨count_new, rfl⟩
  | succ n ih =>
    intro st1 h
    obtain ⟨st, hst, hb⟩ := (loop_head_succ pX pO _ n st1).1 h
    obtain ⟨hc, hm⟩ := ih st hst
    obtain ⟨m, s, hreq, hsym, hv⟩ := hvalid n st hst
    obtain ⟨i, j, hi, hj, hcell⟩ := (is_valid_move_true_iff _ _ _).1 hv
    have hne : m.symbol ≠ ' ' := by rcases hsym with h | h <;> rw [h] <;> decide
    rw [loop_body_yielded pX pO st m s i j hreq hi hj] at hb
    cases ht : terminal_checks (st.board.put i j m.symbol) with
    | some o => simp [ht] at hb
    | none =>
      simp only [ht, Iter.again.injEq] at hb
      subst hb
      have := count_put st.board i j m.symbol hcell hne
      simp only
      omega

/-- Shared core of the termination results: a run from the initial state whose
requests all return valid moves makes `n ≤ 9` requests and then returns. -/
theorem loop_terminates {σ : Type} (pX pO : Producer σ) (sX sO : σ)
    (hvalid : ∀ n st, loop_head pX pO (main_init sX sO) n = some st →
      ∃ m s, request pX pO st = .yielded m s ∧ m.valid_on st.board) :
    ∃ n o b, 1 ≤ n ∧ n ≤ 9 ∧
      (∀ k, k < n → (loop_head pX pO (main_init sX sO) k).isSome = true) ∧
      (∀ k, n ≤ k → loop_head pX pO (main_init sX sO) k = none) ∧
      (∀ fuel, n ≤ fuel → run pX pO fuel (main_init sX sO) = some (o, b, n)) ∧
      (o = .draw ∨ ∃ c, c ≠ ' ' ∧ o = .winner c) := by
  have hcount := loop_head_count pX pO sX sO hvalid
  -- no tenth request
  have h9 : loop_head pX pO (main_init sX sO) 9 = none := by
    cases h : loop_head pX pO (main_init sX sO) 9 with
    | none => rfl
    | some st =>
      exfalso
      obtain ⟨st0, -, hb⟩ := (loop_head_succ pX pO _ 8 st).1 h
      have hfull := (loop_body_again hb).2
      have hc := (hcount 9 st h).1
      have : st.board.is_full = true := (is_full_iff_count _).2 (by omega)
      rw [this] at hfull
      exact Bool.noConfusion hfull
  have hex : ∃ n, loop_head pX pO (main_init sX sO) n = none := ⟨9, h9⟩
  classical
  let n := Nat.find hex
  have hn : loop_head pX pO (main_init sX sO) n = none := Nat.find_spec hex
  have hmin : ∀ k, k < n → loop_head pX pO (main_init sX sO) k ≠ none :=
    fun k hk => Nat.find_min hex hk
  have hn9 : n ≤ 9 := Nat.find_min' hex h9
  have hn1 : 1 ≤ n := by
    rcases Nat.eq_zero_or_pos n with h0 | h0
    · rw [h0] at hn; simp [loop_head] at hn
    · exact h0
  obtain ⟨k, hk⟩ : ∃ k, n = k + 1 := ⟨n - 1, by omega⟩
  obtain ⟨st, hst⟩ := Option.ne_none_iff_exists'.1 (hmin k (by omega))
  obtain ⟨hc, hm⟩ := hcount k st hst
  obtain ⟨m, s, hreq, hsym, hv⟩ := hvalid k st hst
  obtain ⟨i, j, hi, hj, hcell⟩ := (is_valid_move_true_iff _ _ _).1 hv
  have hbody := loop_body_yielded pX pO st m s i j hreq hi hj
  cases ht : terminal_checks (st.board.put i j m.symbol) with
  | none =>
    exfalso
    rw [ht] at hbody
    have : loop_head pX pO (main_init sX sO) (k + 1) ≠ none := by
      rw [Ne, ← Option.not_isSome_iff_eq_none, not_not, Option.isSome_iff_exists]
      exact ⟨_, (loop_head_succ pX pO _ k _).2 ⟨st, hst, hbody⟩⟩
    exact this (hk ▸ hn)
  | some o =>
    rw [ht] at hbody
    simp only at hbody
    refine ⟨n, o, st.board.put i j m.symbol, hn1, hn9, ?_, ?_, ?_, ?_⟩
    · intro k1 hk1
      exact Option.ne_none_iff_isSome.1 (hmin k1 hk1)
    · intro k1 hk1
      exact loop_head_none_le pX pO _ n k1 hn hk1
    · intro fuel hf
      have := run_of_head pX pO k _ st o _ _ hst hbody fuel (by omega)
      rw [this, hm, hk]
    · rcases terminal_checks_some ht with ⟨h1, h2⟩ | ⟨h1, -, -⟩
      · exact Or.inr ⟨_, h2, h1⟩
      · exact Or.inl h1

/-- C7: in a run of the loop of `main` in which every request returns a move that
is valid on the current board (symbol X or O, coordinates accepted by
`is_valid_move`), some number `n ≤ 9` of requests is made, after
which `main` returns with a winner or a draw and `move_count = n`; and every loop
head reached after a move has `check_winner = ' '` and `is_full = false`, so no
request follows a move after which a winner or a full board was found. -/
theorem loop_at_most_nine_requests {σ : Type} (pX pO : Producer σ) (sX sO : σ)
    (hvalid : ∀ n st, loop_head pX pO (main_init sX sO) n = some st →
      ∃ m s, request pX pO st = .yielded m s ∧ m.valid_on st.board) :
    (∃ n o b, 1 ≤ n ∧ n ≤ 9 ∧
      (∀ k, k < n → (loop_head pX pO (main_init sX sO) k).isSome = true) ∧
      (∀ k, n ≤ k → loop_head pX pO (main_init sX sO) k = none) ∧
      (∀ fuel, n ≤ fuel → run pX pO fuel (main_init sX sO) = some (o, b, n)) ∧
      (o = .draw ∨ ∃ c, c ≠ ' ' ∧ o = .winner c)) ∧
    (∀ n st, loop_head pX pO (main_init sX sO) (n + 1) = some st →
      st.board.check_winner = ' ' ∧ st.board.is_full = false) := by
  refine ⟨loop_terminates pX pO sX sO hvalid, ?_⟩
  intro n st h
  obtain ⟨st0, -, hb⟩ := (loop_head_succ pX pO _ n st).1 h
  exact loop_body_again hb

theorem run_mono {σ : Type} (pX pO : Producer σ) (fuel : Nat) :
    ∀ (st : Loop σ) (r : Outcome × Board × Nat), run pX pO fuel st = some r →
      ∀ fuel1, fuel ≤ fuel1 → run pX pO fuel1 st = some r := by
  induction fuel with
  | zero => intro st r h; simp [run] at h
  | succ f ih =>
    intro st r h fuel1 hf
    obtain ⟨f1, rfl⟩ : ∃ f1, fuel1 = f1 + 1 := ⟨fuel1 - 1, by omega⟩
    simp only [run] at h ⊢
    cases hb : loop_body pX pO st with
    | again st1 =>
      simp only [hb] at h ⊢
      exact ih st1 r h f1 (by omega)
    | exit o b k =>
      simp only [hb] at h ⊢
      exact h
    | undefined => simp [hb] at h

theorem run_eq_of_view {σ : Type} (pX pO : Producer σ) (fuel : Nat) (st : Loop σ)
    (o : Outcome) (b : Board) (n : Nat)
    (h : (run pX pO fuel st).map result_view = some (o, b.rows, n)) :
    ∀ fuel1, fuel ≤ fuel1 → run pX pO fuel1 st = some (o, b, n) := by
  cases hr : run pX pO fuel st with
  | none => simp [hr] at h
  | some r =>
    obtain ⟨o1, b1, n1⟩ := r
    simp only [hr, Option.map_some', result_view, Option.some.injEq, Prod.mk.injEq] at h
    obtain ⟨rfl, hb, rfl⟩ := h
    rw [rows_injective hb] at hr
    exact run_mono pX pO fuel st _ hr

set_option maxRecDepth 100000 in
/-- C8: with X's producer yielding (0,0),(0,1),(0,2) and O's yielding (1,0),(1,1),
`check_winner` is `' '` after each of the first four moves, the fifth move is X's
and `check_winner` is X right after it; the loop stops there with outcome
Winner X and `move_count = 5`. -/
theorem scripted_game_X_wins :
    (∀ k ∈ [1, 2, 3, 4],
      (loop_head (scripted 'X') (scripted 'O')
          (main_init [(0, 0), (0, 1), (0, 2)] [(1, 0), (1, 1)]) k).map
        (fun st => (st.board.check_winner, st.move_count)) = some (' ', k)) ∧
    (loop_head (scripted 'X') (scripted 'O')
        (main_init [(0, 0), (0, 1), (0, 2)] [(1, 0), (1, 1)]) 4).map
      (fun st => (st.current_player, st.coroutine_X)) = some ('X', [(0, 2)]) ∧
    (loop_head (scripted 'X') (scripted 'O')
        (main_init [(0, 0), (0, 1), (0, 2)] [(1, 0), (1, 1)]) 5).isNone = true ∧
    (Board.ofRows 'X' 'X' 'X' 'O' 'O' ' ' ' ' ' ' ' ').check_winner = 'X' ∧
    ∀ fuel, 5 ≤ fuel →
      run (scripted 'X') (scripted 'O') fuel
          (main_init [(0, 0), (0, 1), (0, 2)] [(1, 0), (1, 1)])
        = some (.winner 'X', Board.ofRows 'X' 'X' 'X' 'O' 'O' ' ' ' ' ' ' ' ', 5) := by
  refine ⟨by decide, by decide, by decide, by decide, ?_⟩
  exact run_eq_of_view _ _ 5 _ _ _ _ (by decide)

theorem valid_of_checks {σ : Type} (pX pO : Producer σ) (st0 : Loop σ) (N : Nat)
    (hN : (loop_head pX pO st0 N).isNone = true)
    (hchk : ∀ k, k < N → (loop_head pX pO st0 k).all (request_valid pX pO) = true) :
    ∀ n st, loop_head pX pO st0 n = some st →
      ∃ m s, request pX pO st = .yielded m s ∧ m.valid_on st.board := by
  intro n st h
  by_cases hn : n < N
  · have := hchk n hn
    rw [h] at this
    exact (request_valid_iff pX pO st).1 this
  · have h0 := loop_head_none_le pX pO st0 N n (Option.isNone_iff_eq_none.1 hN) (by omega)
    rw [h0] at h
    exact Option.noConfusion h

set_option maxRecDepth 100000 in
theorem loop_at_most_nine_requests_witness :
    (∃ n o b, 1 ≤ n ∧ n ≤ 9 ∧
      (∀ k, k < n → (loop_head (scripted 'X') (scripted 'O')
          (main_init [(0, 0), (0, 1), (0, 2)] [(1, 0), (1, 1)]) k).isSome = true) ∧
      (∀ k, n ≤ k → loop_head (scripted 'X') (scripted 'O')
          (main_init [(0, 0), (0, 1), (0, 2)] [(1, 0), (1, 1)]) k = none) ∧
      (∀ fuel, n ≤ fuel → run (scripted 'X') (scripted 'O') fuel
          (main_init [(0, 0), (0, 1), (0, 2)] [(1, 0), (1, 1)]) = some (o, b, n)) ∧
      (o = .draw ∨ ∃ c, c ≠ ' ' ∧ o = .winner c)) ∧
    (∀ n st, loop_head (scripted 'X') (scripted 'O')
        (main_init [(0, 0), (0, 1), (0, 2)] [(1, 0), (1, 1)]) (n + 1) = some st →
      st.board.check_winner = ' ' ∧ st.board.is_full = false) :=
  loop_at_most_nine_requests (scripted 'X') (scripted 'O') [(0, 0), (0, 1), (0, 2)]
    [(1, 0), (1, 1)] (valid_of_checks _ _ _ 5 (by decide) (by decide))

theorem terminal_checks_draw (b : Board) (hfull : ∀ i j : Fin 3, b.grid i j ≠ ' ')
    (hno : ∀ l ∈ lines, ¬ b.complete l) : terminal_checks b = some .draw := by
  have h1 : b.check_winner = ' ' := (check_winner_blank_iff b).2 hno
  have h2 : b.is_full = true := (is_full_eq_true_iff b).2 hfull
  simp [terminal_checks, h1, h2]

set_option maxRecDepth 100000 in
/-- C9: on the board X,O,X / X,O,O / O,X,X `check_winner` is `' '` and `is_full`
is true, and a game whose ninth move produces it ends as Draw with
`move_count = 9`; in general the checks made after a move give Draw on every
board with no Empty cell and no complete line, so a pass of the loop whose move
produces such a board leaves the loop with Draw. -/
theorem full_board_without_line_is_draw :
    (Board.ofRows 'X' 'O' 'X' 'X' 'O' 'O' 'O' 'X' 'X').check_winner = ' ' ∧
    (Board.ofRows 'X' 'O' 'X' 'X' 'O' 'O' 'O' 'X' 'X').is_full = true ∧
    (∀ fuel, 9 ≤ fuel →
      run (scripted 'X') (scripted 'O') fuel
          (main_init [(0, 0), (0, 2), (1, 0), (2, 1), (2, 2)] [(0, 1), (1, 1), (1, 2), (2, 0)])
        = some (.draw, Board.ofRows 'X' 'O' 'X' 'X' 'O' 'O' 'O' 'X' 'X', 9)) ∧
    (∀ b : Board, (∀ i j : Fin 3, b.grid i j ≠ ' ') → (∀ l ∈ lines, ¬ b.complete l) →
      terminal_checks b = some .draw) ∧
    (∀ (σ : Type) (pX pO : Producer σ) (st : Loop σ) (m : Move) (s : σ) (b : Board),
      request pX pO st = .yielded m s →
      st.board.make_move m.row m.col m.symbol = some b →
      (∀ i j : Fin 3, b.grid i j ≠ ' ') → (∀ l ∈ lines, ¬ b.complete l) →
      loop_body pX pO st = .exit .draw b (st.move_count + 1)) := by
  refine ⟨by decide, by decide, run_eq_of_view _ _ 9 _ _ _ _ (by decide),
    terminal_checks_draw, ?_⟩
  intro σ pX pO st m s b hreq hm hfull hno
  unfold loop_body
  simp only [hreq, hm, terminal_checks_draw b hfull hno]

/-! ## The sampling producers -/

theorem is_valid_move_defined (b : Board) (row col : Int) :
    ∃ v, b.is_valid_move row col = some v := by
  by_cases hr : 0 ≤ row ∧ row < 3 ∧ 0 ≤ col ∧ col < 3
  · have h2 := is_valid_move_fin b ⟨row.toNat, by omega⟩ ⟨col.toNat, by omega⟩
    simp only [Int.toNat_of_nonneg hr.1, Int.toNat_of_nonneg hr.2.2.1] at h2
    exact ⟨_, h2⟩
  · exact ⟨_, is_valid_move_out b row col hr⟩

theorem sample_loop_mono (b : Board) (dis : Nat → Int) (f : Nat) :
    ∀ (pos : Nat) (r : Int × Int × Nat), sample_loop b dis f pos = some r →
      ∀ f1, f ≤ f1 → sample_loop b dis f1 pos = some r := by
  induction f with
  | zero => intro pos r h; simp [sample_loop] at h
  | succ f ih =>
    intro pos r h f1 hf
    obtain ⟨g, rfl⟩ : ∃ g, f1 = g + 1 := ⟨f1 - 1, by omega⟩
    simp only [sample_loop] at h ⊢
    cases hv : b.is_valid_move (dis pos) (dis (pos + 1)) with
    | none => simp [hv] at h
    | some v =>
      cases v with
      | true => simpa [hv] using h
      | false =>
        simp only [hv] at h ⊢
        exact ih _ r h g (by omega)

theorem sample_loop_valid (b : Board) (dis : Nat → Int) (f : Nat) :
    ∀ (k : Nat) (row col : Int) (pos1 : Nat),
      sample_loop b dis f (2 * k) = some (row, col, pos1) →
      b.is_valid_move row col = some true ∧ ∃ k1, pos1 = 2 * k1 := by
  induction f with
  | zero => intro k row col pos1 h; simp [sample_loop] at h
  | succ f ih =>
    intro k row col pos1 h
    simp only [sample_loop] at h
    cases hv : b.is_valid_move (dis (2 * k)) (dis (2 * k + 1)) with
    | none => simp [hv] at h
    | some v =>
      cases v with
      | true =>
        simp only [hv, Option.some.injEq, Prod.mk.injEq] at h
        obtain ⟨rfl, rfl, rfl⟩ := h
        exact ⟨hv, k + 1, by ring⟩
      | false =>
        simp only [hv] at h
        exact ih (k + 1) row col pos1 (by rw [show 2 * (k + 1) = 2 * k + 2 by ring]; exact h)

theorem sample_loop_accepts (b : Board) (dis : Nat → Int) (i j : Fin 3)
    (hcell : b.grid i j = ' ') (k1 : Nat)
    (h1 : dis (2 * k1) = (i.val : Int)) (h2 : dis (2 * k1 + 1) = (j.val : Int)) :
    ∀ d k, k + d = k1 → ∃ r, sample_loop b dis (d + 1) (2 * k) = some r := by
  intro d
  induction d with
  | zero =>
    intro k hk
    have : k = k1 := by omega
    subst this
    have hv : b.is_valid_move (dis (2 * k)) (dis (2 * k + 1)) = some true := by
      rw [h1, h2, is_valid_move_fin, hcell]; rfl
    exact ⟨(dis (2 * k), dis (2 * k + 1), 2 * k + 2), by simp only [sample_loop, hv]⟩
  | succ d ih =>
    intro k hk
    obtain ⟨v, hv⟩ := is_valid_move_defined b (dis (2 * k)) (dis (2 * k + 1))
    cases v with
    | true => exact ⟨(dis (2 * k), dis (2 * k + 1), 2 * k + 2), by simp only [sample_loop, hv]⟩
    | false =>
      obtain ⟨r, hr⟩ := ih (k + 1) (by omega)
      refine ⟨r, ?_⟩
      rw [show 2 * (k + 1) = 2 * k + 2 by ring] at hr
      simp only [sample_loop, hv]
      exact hr

theorem sample_loop_of_fair (b : Board) (dis : Nat → Int) (hfair : fair dis)
    (hb : b.is_full = false) (k : Nat) :
    ∃ f r, sample_loop b dis f (2 * k) = some r := by
  have : ∃ i j : Fin 3, b.grid i j = ' ' := by
    by_contra hne
    push_neg at hne
    rw [(is_full_eq_true_iff b).2 hne] at hb
    exact Bool.noConfusion hb
  obtain ⟨i, j, hcell⟩ := this
  obtain ⟨k1, hk, h1, h2⟩ := hfair i j k
  obtain ⟨r, hr⟩ := sample_loop_accepts b dis i j hcell k1 h1 h2 (k1 - k) k (by omega)
  exact ⟨_, r, hr⟩

theorem request_sampling (disX disO : Nat → Int) (sfuel : Nat) (st : Loop Nat) :
    request (player_X disX sfuel) (player_O disO sfuel) st =
      match sample_loop st.board (if st.current_player = 'X' then disX else disO) sfuel
          (if st.current_player = 'X' then st.coroutine_X else st.coroutine_O) with
      | some (row, col, pos1) =>
        .yielded ⟨row, col, if st.current_player = 'X' then 'X' else 'O'⟩ pos1
      | none => .no_return := by
  unfold request player_X player_O
  split_ifs <;> rfl

theorem sample_loop_const_none (b : Board) (h : b.is_valid_move 0 0 = some false) (f : Nat) :
    ∀ pos, sample_loop b (fun _ => 0) f pos = none := by
  induction f with
  | zero => intro pos; rfl
  | succ f ih =>
    intro pos
    simp only [sample_loop, h]
    exact ih _

/-- C10 (as stated, refuted): with both sample streams constantly 0, X takes (0,0)
and O's sampling loop then rejects every pass, so for no bound on the sampling
passes and on the loop turns does the run return. -/
theorem constant_samples_never_return :
    ¬ ∃ fuel fX fO,
      (run (player_X (fun _ => 0) fX) (player_O (fun _ => 0) fO) fuel (main_init 0 0)).isSome
        = true := by
  rintro ⟨fuel, fX, fO, h⟩
  cases fuel with
  | zero => simp [run] at h
  | succ fuel =>
    cases fX with
    | zero => simp [run, loop_body, request, main_init, player_X, sample_loop] at h
    | succ fX =>
      have hv : Board.new.is_valid_move 0 0 = some true := by decide
      have hm : Board.new.make_move 0 0 'X' = some (Board.new.put 0 0 'X') :=
        make_move_fin Board.new 0 0 'X'
      have ht : terminal_checks (Board.new.put 0 0 'X') = none := by decide
      have hv2 : (Board.new.put 0 0 'X').is_valid_move 0 0 = some false := by decide
      simp only [run, loop_body, request, main_init, player_X, sample_loop, hv, if_true, hm,
        ht] at h
      cases fuel with
      | zero => simp [run] at h
      | succ fuel =>
        simp [run, loop_body, request, player_O, sample_loop_const_none _ hv2] at h

/-- One pass of the loop with the sampling producers on a board that is not
full: for every large enough bound on the sampling passes the pass writes the
same Empty cell. -/
theorem sampling_pass (disX disO : Nat → Int) (hX : fair disX) (hO : fair disO)
    (st : Loop Nat) (hfull : st.board.is_full = false)
    (heX : ∃ a, st.coroutine_X = 2 * a) (heO : ∃ a, st.coroutine_O = 2 * a) :
    ∃ (F : Nat) (i j : Fin 3) (a : Nat), st.board.grid i j = ' ' ∧
      ∀ sfuel, F ≤ sfuel →
        loop_body (player_X disX sfuel) (player_O disO sfuel) st =
          match terminal_checks
              (st.board.put i j (if st.current_player = 'X' then 'X' else 'O')) with
          | some o =>
            .exit o (st.board.put i j (if st.current_player = 'X' then 'X' else 'O'))
              (st.move_count + 1)
          | none =>
            .again
              { board := st.board.put i j (if st.current_player = 'X' then 'X' else 'O')
                move_count := st.move_count + 1
                current_player := if st.current_player = 'X' then 'O' else 'X'
                coroutine_X := if st.current_player = 'X' then 2 * a else st.coroutine_X
                coroutine_O := if st.current_player = 'X' then st.coroutine_O else 2 * a } := by
  have hfair : fair (if st.current_player = 'X' then disX else disO) := by
    split_ifs <;> assumption
  obtain ⟨k, hk⟩ : ∃ k, (if st.current_player = 'X' then st.coroutine_X else st.coroutine_O)
      = 2 * k := by
    split_ifs <;> assumption
  obtain ⟨F, ⟨row, col, pos1⟩, hs⟩ := sample_loop_of_fair st.board _ hfair hfull k
  obtain ⟨hv, a, ha⟩ := sample_loop_valid st.board _ F k row col pos1 hs
  obtain ⟨i, j, hi, hj, hcell⟩ := (is_valid_move_true_iff _ _ _).1 hv
  refine ⟨F, i, j, a, hcell, fun sfuel hF => ?_⟩
  have hs2 := sample_loop_mono st.board _ F (2 * k) _ hs sfuel hF
  have hreq : request (player_X disX sfuel) (player_O disO sfuel) st =
      .yielded ⟨row, col, if st.current_player = 'X' then 'X' else 'O'⟩ pos1 := by
    rw [request_sampling, hk, hs2]
  have hbody := loop_body_yielded (player_X disX sfuel) (player_O disO sfuel) st
    ⟨row, col, if st.current_player = 'X' then 'X' else 'O'⟩ pos1 i j hreq hi hj
  subst ha
  simp only at hbody
  exact hbody

theorem sampling_run_returns (disX disO : Nat → Int) (hX : fair disX) (hO : fair disO)
    (c : Nat) :
    ∀ st : Loop Nat, st.board.count ' ' = c → st.board.is_full = false →
      (∃ a, st.coroutine_X = 2 * a) → (∃ a, st.coroutine_O = 2 * a) →
      ∃ F o b n, (o = .draw ∨ ∃ s, s ≠ ' ' ∧ o = .winner s) ∧
        st.move_count < n ∧ n ≤ st.move_count + c ∧
        ∀ sfuel fuel, F ≤ sfuel → c ≤ fuel →
          run (player_X disX sfuel) (player_O disO sfuel) fuel st = some (o, b, n) := by
  induction c with
  | zero =>
    intro st hc hfull
    rw [(is_full_iff_count _).2 hc] at hfull
    exact Bool.noConfusion hfull
  | succ c ih =>
    intro st hc hfull heX heO
    obtain ⟨F, i, j, a, hcell, hbody⟩ := sampling_pass disX disO hX hO st hfull heX heO
    have hsym : (if st.current_player = 'X' then 'X' else 'O') ≠ ' ' := by
      split_ifs <;> decide
    have hcount := count_put st.board i j _ hcell hsym
    cases ht : terminal_checks
        (st.board.put i j (if st.current_player = 'X' then 'X' else 'O')) with
    | some o =>
      simp only [ht] at hbody
      refine ⟨F, o, st.board.put i j (if st.current_player = 'X' then 'X' else 'O'),
        st.move_count + 1, ?_, by omega, by omega, ?_⟩
      · rcases terminal_checks_some ht with ⟨h1, h2⟩ | ⟨h1, -, -⟩
        · exact Or.inr ⟨_, h2, h1⟩
        · exact Or.inl h1
      · intro sfuel fuel hF hfuel
        obtain ⟨f, rfl⟩ : ∃ f, fuel = f + 1 := ⟨fuel - 1, by omega⟩
        simp only [run, hbody sfuel hF]
    | none =>
      simp only [ht] at hbody
      obtain ⟨F2, o, b, n, ho, hlt, hle, hrun⟩ :=
        ih { board := st.board.put i j (if st.current_player = 'X' then 'X' else 'O')
             move_count := st.move_count + 1
             current_player := if st.current_player = 'X' then 'O' else 'X'
             coroutine_X := if st.current_player = 'X' then 2 * a else st.coroutine_X
             coroutine_O := if st.current_player = 'X' then st.coroutine_O else 2 * a }
          (by simp only; omega) (terminal_checks_none ht).2
          (by simp only; split_ifs; exacts [⟨a, rfl⟩, heX])
          (by simp only; split_ifs; exacts [heO, ⟨a, rfl⟩])
      simp only at hlt hle hrun
      refine ⟨max F F2, o, b, n, ho, by omega, by omega, ?_⟩
      intro sfuel fuel hF hfuel
      obtain ⟨f, rfl⟩ : ∃ f, fuel = f + 1 := ⟨fuel - 1, by omega⟩
      simp only [run, hbody sfuel (le_trans (le_max_left _ _) hF)]
      exact hrun sfuel f (le_trans (le_max_right _ _) hF) (by omega)

theorem round_robin_fair : fair round_robin := by
  intro i j k
  have hi := i.isLt
  have hj := j.isLt
  refine ⟨9 * k + 3 * i.val + j.val, by omega, ?_, ?_⟩
  · unfold round_robin
    rw [if_pos (by omega)]
    congr 1
    omega
  · unfold round_robin
    rw [if_neg (by omega)]
    congr 1
    omega

/-- C10 (amended): with sample streams in which every cell keeps coming back,
the simulation terminates: there is a bound on the sampling passes from which on
every run returns, after `n ≤ 9` moves, with a winner or a draw. -/
theorem fair_simulation_terminates (disX disO : Nat → Int) (hX : fair disX) (hO : fair disO) :
    ∃ F o b n, (o = .draw ∨ ∃ s, s ≠ ' ' ∧ o = .winner s) ∧ 1 ≤ n ∧ n ≤ 9 ∧
      ∀ sfuel fuel, F ≤ sfuel → 9 ≤ fuel →
        run (player_X disX sfuel) (player_O disO sfuel) fuel (main_init 0 0)
          = some (o, b, n) := by
  obtain ⟨F, o, b, n, ho, hlt, hle, hrun⟩ :=
    sampling_run_returns disX disO hX hO 9 (main_init 0 0) count_new (by decide)
      ⟨0, rfl⟩ ⟨0, rfl⟩
  have h0 : (main_init (0 : Nat) 0).move_count = 0 := rfl
  rw [h0] at hlt hle
  exact ⟨F, o, b, n, ho, by omega, by omega, hrun⟩

theorem fair_simulation_terminates_witness :
    fair round_robin ∧
    ∃ F o b n, (o = .draw ∨ ∃ s, s ≠ ' ' ∧ o = .winner s) ∧ 1 ≤ n ∧ n ≤ 9 ∧
      ∀ sfuel fuel, F ≤ sfuel → 9 ≤ fuel →
        run (player_X round_robin sfuel) (player_O round_robin sfuel) fuel (main_init 0 0)
          = some (o, b, n) :=
  ⟨round_robin_fair, fair_simulation_terminates round_robin round_robin round_robin_fair
    round_robin_fair⟩

/-! ## Scan order and rendering -/

theorem first_line_of_prefix (b : Board) (pre post : List Line) (l : Line)
    (hsplit : lines = pre ++ l :: post) (hpre : ∀ l1 ∈ pre, ¬ b.complete l1)
    (hl : b.complete l) : b.first_line = some l := by
  unfold Board.first_line
  rw [hsplit, List.find?_append]
  have h1 : pre.find? (fun l => decide (b.test l)) = none := by
    rw [List.find?_eq_none]
    intro l1 h1
    simpa [complete_iff_test] using hpre l1 h1
  have h2 : b.test l := (complete_iff_test b l).1 hl
  simp [h1, h2]

theorem holds_of_test {b : Board} {l : Line} (h : b.test l) :
    b.holds l (b.grid l.1.1 l.1.2) :=
  ⟨rfl, h.2.1.symm, by rw [← h.2.2, ← h.2.1]⟩

/-- C11: on every board, `check_winner` returns the symbol of the first line, in
the order row 0, row 1, row 2, column 0, column 1, column 2, main diagonal,
anti-diagonal, that consists of three equal non-Empty cells, and `' '` when there
is no such line; with complete lines of both symbols the earlier line decides. -/
theorem check_winner_first_in_scan_order :
    (∀ (b : Board) (pre post : List Line) (l : Line), lines = pre ++ l :: post →
      (∀ l1 ∈ pre, ¬ b.complete l1) → b.complete l →
        b.check_winner ≠ ' ' ∧ b.holds l b.check_winner) ∧
    (∀ b : Board, (∀ l ∈ lines, ¬ b.complete l) → b.check_winner = ' ') ∧
    (Board.ofRows 'O' 'O' 'O' 'X' 'X' 'X' ' ' ' ' ' ').check_winner = 'O' ∧
    (Board.ofRows 'X' ' ' 'O' 'X' ' ' 'O' 'X' ' ' 'O').check_winner = 'X' ∧
    (Board.ofRows 'O' ' ' 'X' 'O' 'X' ' ' 'X' 'X' 'X').check_winner = 'X' := by
  refine ⟨?_, fun b h => (check_winner_blank_iff b).2 h, by decide, by decide, by decide⟩
  intro b pre post l hsplit hpre hl
  have hf := first_line_of_prefix b pre post l hsplit hpre hl
  have ht : b.test l := (complete_iff_test b l).1 hl
  rw [check_winner_eq_first_line, hf]
  exact ⟨ht.1, holds_of_test ht⟩

theorem print_eq (b : Board) : b.print = "\n" ++ five_lines b ++ "\n\n" := by
  simp only [Board.print, five_lines, List.foldl]
  apply String.ext
  simp [String.data_append, String.data_push, String.singleton]

/-- C12 (as stated, refuted): on the empty board the text written by `print` is
not the five-line rendering, with or without a final newline: it starts with a
newline of its own. -/
theorem print_is_not_five_lines :
    Board.new.print ≠ five_lines Board.new ∧ Board.new.print ≠ five_lines Board.new ++ "\n" := by
  decide

/-- C12 (amended): for every board the text written by `print` is one newline,
then the five-line rendering with each of its lines ended by a newline, then one
more newline; each cell is written as the character it holds. -/
theorem print_renders_framed (b : Board) :
    b.print = "\n" ++ five_lines b ++ "\n" ++ "\n" ∧
    five_lines b =
      String.mk [' ', b.grid 0 0, ' ', '|', ' ', b.grid 0 1, ' ', '|', ' ', b.grid 0 2, '\n',
        '-', '-', '-', '|', '-', '-', '-', '|', '-', '-', '-', '\n',
        ' ', b.grid 1 0, ' ', '|', ' ', b.grid 1 1, ' ', '|', ' ', b.grid 1 2, '\n',
        '-', '-', '-', '|', '-', '-', '-', '|', '-', '-', '-', '\n',
        ' ', b.grid 2 0, ' ', '|', ' ', b.grid 2 1, ' ', '|', ' ', b.grid 2 2] := by
  constructor
  · rw [print_eq]
    apply String.ext
    simp [String.data_append]
  · apply String.ext
    simp [five_lines, String.data_append, String.singleton]

/-! ## Requests, yields and the order of the checks -/

theorem loop_head_not_terminal {σ : Type} (pX pO : Producer σ) (sX sO : σ) (n : Nat)
    (st : Loop σ) (h : loop_head pX pO (main_init sX sO) n = some st) :
    st.board.check_winner = ' ' ∧ st.board.is_full = false := by
  cases n with
  | zero =>
    simp only [loop_head, Option.some.injEq] at h
    subst h
    show Board.new.check_winner = ' ' ∧ Board.new.is_full = false
    decide
  | succ n =>
    obtain ⟨st0, -, hb⟩ := (loop_head_succ pX pO _ n st).1 h
    exact loop_body_again hb

theorem sample_loop_accepted (b : Board) (dis : Nat → Int) (f : Nat) :
    ∀ (pos : Nat) (row col : Int) (pos1 : Nat),
      sample_loop b dis f pos = some (row, col, pos1) →
      b.is_valid_move row col = some true := by
  induction f with
  | zero => intro pos row col pos1 h; simp [sample_loop] at h
  | succ f ih =>
    intro pos row col pos1 h
    simp only [sample_loop] at h
    cases hv : b.is_valid_move (dis pos) (dis (pos + 1)) with
    | none => simp [hv] at h
    | some v =>
      cases v with
      | true =>
        simp only [hv, Option.some.injEq, Prod.mk.injEq] at h
        obtain ⟨rfl, rfl, -⟩ := h
        exact hv
      | false =>
        simp only [hv] at h
        exact ih _ row col pos1 h

theorem player_X_yield {dis : Nat → Int} {fuel pos pos1 : Nat} {board : Board} {m : Move}
    (h : player_X dis fuel pos board = .yielded m pos1) :
    m.symbol = 'X' ∧ board.is_valid_move m.row m.col = some true := by
  unfold player_X at h
  cases hs : sample_loop board dis fuel pos with
  | none => simp [hs] at h
  | some r =>
    obtain ⟨row, col, p⟩ := r
    simp only [hs, Resumed.yielded.injEq] at h
    obtain ⟨rfl, -⟩ := h
    exact ⟨rfl, sample_loop_accepted board dis fuel pos row col p hs⟩

theorem player_O_yield {dis : Nat → Int} {fuel pos pos1 : Nat} {board : Board} {m : Move}
    (h : player_O dis fuel pos board = .yielded m pos1) :
    m.symbol = 'O' ∧ board.is_valid_move m.row m.col = some true := by
  unfold player_O at h
  cases hs : sample_loop board dis fuel pos with
  | none => simp [hs] at h
  | some r =>
    obtain ⟨row, col, p⟩ := r
    simp only [hs, Resumed.yielded.injEq] at h
    obtain ⟨rfl, -⟩ := h
    exact ⟨rfl, sample_loop_accepted board dis fuel pos row col p hs⟩

theorem valid_in_range {b : Board} {row col : Int}
    (h : b.is_valid_move row col = some true) :
    0 ≤ row ∧ row < 3 ∧ 0 ≤ col ∧ col < 3 ∧ b.cell row col = some ' ' := by
  obtain ⟨i, j, rfl, rfl, hc⟩ := (is_valid_move_true_iff b row col).1 h
  have hi := i.isLt
  have hj := j.isLt
  refine ⟨by omega, by omega, by omega, by omega, ?_⟩
  rw [cell_fin, hc]

theorem loop_body_board {σ : Type} (pX pO : Producer σ) (st : Loop σ) (m : Move) (s : σ)
    (b1 : Board) (hreq : request pX pO st = .yielded m s)
    (hm : st.board.make_move m.row m.col m.symbol = some b1) :
    loop_body pX pO st =
      match terminal_checks b1 with
      | some o => .exit o b1 (st.move_count + 1)
      | none =>
        .again
          { board := b1
            move_count := st.move_count + 1
            current_player := if st.current_player = 'X' then 'O' else 'X'
            coroutine_X := if st.current_player = 'X' then s else st.coroutine_X
            coroutine_O := if st.current_player = 'X' then st.coroutine_O else s } := by
  unfold loop_body
  simp only [hreq, hm]

theorem make_move_of_valid {b : Board} {row col : Int} (s : Char)
    (h : b.is_valid_move row col = some true) :
    ∃ i j : Fin 3, (i.val : Int) = row ∧ (j.val : Int) = col ∧ b.grid i j = ' ' ∧
      b.make_move row col s = some (b.put i j s) := by
  obtain ⟨i, j, rfl, rfl, hc⟩ := (is_valid_move_true_iff b row col).1 h
  exact ⟨i, j, rfl, rfl, hc, make_move_fin b i j s⟩

/-- C14: a move yielded by `player_X` (resp. `player_O`) has symbol X (resp. O)
and coordinates that pass `is_valid_move` on the board the producer read: both in
`[0,3)`, cell Empty.  A producer only returns a move, the board is the same when
the loop applies the move: `make_move` succeeds on it and the loop goes on from,
or returns with, the board so written. -/
theorem producers_yield_valid_moves (dis : Nat → Int) (fuel pos pos1 : Nat) (board : Board)
    (m : Move) :
    (player_X dis fuel pos board = .yielded m pos1 →
      m.symbol = 'X' ∧ board.is_valid_move m.row m.col = some true ∧
      0 ≤ m.row ∧ m.row < 3 ∧ 0 ≤ m.col ∧ m.col < 3 ∧ board.cell m.row m.col = some ' ') ∧
    (player_O dis fuel pos board = .yielded m pos1 →
      m.symbol = 'O' ∧ board.is_valid_move m.row m.col = some true ∧
      0 ≤ m.row ∧ m.row < 3 ∧ 0 ≤ m.col ∧ m.col < 3 ∧ board.cell m.row m.col = some ' ') ∧
    (∀ (disO : Nat → Int) (fuelO : Nat) (st : Loop Nat),
      request (player_X dis fuel) (player_O disO fuelO) st = .yielded m pos1 →
      st.board.is_valid_move m.row m.col = some true ∧
      ∃ b1, st.board.make_move m.row m.col m.symbol = some b1 ∧
        b1.cell m.row m.col = some m.symbol ∧
        (∀ st1, loop_body (player_X dis fuel) (player_O disO fuelO) st = .again st1 →
          st1.board = b1) ∧
        (∀ o b k, loop_body (player_X dis fuel) (player_O disO fuelO) st = .exit o b k →
          b = b1)) := by
  refine ⟨fun h => ?_, fun h => ?_, ?_⟩
  · obtain ⟨h1, h2⟩ := player_X_yield h
    exact ⟨h1, h2, valid_in_range h2⟩
  · obtain ⟨h1, h2⟩ := player_O_yield h
    exact ⟨h1, h2, valid_in_range h2⟩
  · intro disO fuelO st hreq
    have hv : st.board.is_valid_move m.row m.col = some true := by
      unfold request at hreq
      split_ifs at hreq
      · exact (player_X_yield hreq).2
      · exact (player_O_yield hreq).2
    obtain ⟨i, j, hi, hj, -, hm⟩ := make_move_of_valid m.symbol hv
    refine ⟨hv, _, hm, ?_, ?_, ?_⟩
    · rw [← hi, ← hj, cell_fin]; simp [put_grid]
    · intro st1 hb
      rw [loop_body_board _ _ st m pos1 _ hreq hm] at hb
      cases ht : terminal_checks (st.board.put i j m.symbol) with
      | some o => simp [ht] at hb
      | none =>
        simp only [ht, Iter.again.injEq] at hb
        rw [← hb]
    · intro o b k hb
      rw [loop_body_board _ _ st m pos1 _ hreq hm] at hb
      cases ht : terminal_checks (st.board.put i j m.symbol) with
      | some o1 =>
        simp only [ht, Iter.exit.injEq] at hb
        exact hb.2.1.symm
      | none => simp [ht] at hb

theorem producers_yield_valid_moves_witness :
    (⟨0, 0, 'X'⟩ : Move).symbol = 'X' ∧
      Board.new.is_valid_move (⟨0, 0, 'X'⟩ : Move).row (⟨0, 0, 'X'⟩ : Move).col = some true ∧
      0 ≤ (⟨0, 0, 'X'⟩ : Move).row ∧ (⟨0, 0, 'X'⟩ : Move).row < 3 ∧
      0 ≤ (⟨0, 0, 'X'⟩ : Move).col ∧ (⟨0, 0, 'X'⟩ : Move).col < 3 ∧
      Board.new.cell (⟨0, 0, 'X'⟩ : Move).row (⟨0, 0, 'X'⟩ : Move).col = some ' ' :=
  (producers_yield_valid_moves round_robin 1 0 2 Board.new ⟨0, 0, 'X'⟩).1 rfl

set_option maxRecDepth 100000 in
/-- C15: after a move has been applied the loop decides in this order: a
non-Empty `check_winner` ends the game with that winner; otherwise a full board
ends it as a draw; otherwise the loop goes on with the other player.  A ninth
move that fills the board and completes a line gives a winner, not a draw. -/
theorem outcome_decided_in_order :
    (∀ (σ : Type) (pX pO : Producer σ) (st : Loop σ) (m : Move) (s : σ) (b1 : Board),
      request pX pO st = .yielded m s →
      st.board.make_move m.row m.col m.symbol = some b1 →
      (b1.check_winner ≠ ' ' →
        loop_body pX pO st = .exit (.winner b1.check_winner) b1 (st.move_count + 1)) ∧
      (b1.check_winner = ' ' → b1.is_full = true →
        loop_body pX pO st = .exit .draw b1 (st.move_count + 1)) ∧
      (b1.check_winner = ' ' → b1.is_full = false →
        loop_body pX pO st = .again
          { board := b1
            move_count := st.move_count + 1
            current_player := if st.current_player = 'X' then 'O' else 'X'
            coroutine_X := if st.current_player = 'X' then s else st.coroutine_X
            coroutine_O := if st.current_player = 'X' then st.coroutine_O else s })) ∧
    (Board.ofRows 'X' 'O' 'O' 'O' 'X' 'X' 'X' 'O' 'X').is_full = true ∧
    (∀ fuel, 9 ≤ fuel →
      run (scripted 'X') (scripted 'O') fuel
          (main_init [(0, 0), (1, 2), (2, 0), (2, 2), (1, 1)] [(0, 1), (0, 2), (1, 0), (2, 1)])
        = some (.winner 'X', Board.ofRows 'X' 'O' 'O' 'O' 'X' 'X' 'X' 'O' 'X', 9)) := by
  refine ⟨?_, by decide, run_eq_of_view _ _ 9 _ _ _ _ (by decide)⟩
  intro σ pX pO st m s b1 hreq hm
  rw [loop_body_board pX pO st m s b1 hreq hm]
  refine ⟨fun hw => ?_, fun hw hf => ?_, fun hw hf => ?_⟩
  · simp [terminal_checks, hw]
  · simp [terminal_checks, hw, hf]
  · simp [terminal_checks, hw, hf]

/-! ## Runs with the current player's symbol on validated cells -/

theorem loop_body_again_elim {σ : Type} {pX pO : Producer σ} {st st1 : Loop σ}
    (h : loop_body pX pO st = .again st1) :
    ∃ m s b1, request pX pO st = .yielded m s ∧
      st.board.make_move m.row m.col m.symbol = some b1 ∧ terminal_checks b1 = none ∧
      st1 = { board := b1
              move_count := st.move_count + 1
              current_player := if st.current_player = 'X' then 'O' else 'X'
              coroutine_X := if st.current_player = 'X' then s else st.coroutine_X
              coroutine_O := if st.current_player = 'X' then st.coroutine_O else s } := by
  cases hreq : request pX pO st with
  | no_return => simp [loop_body, hreq] at h
  | done => simp [loop_body, hreq] at h
  | yielded m s =>
    cases hm : st.board.make_move m.row m.col m.symbol with
    | none => simp [loop_body, hreq, hm] at h
    | some b1 =>
      rw [loop_body_board pX pO st m s b1 hreq hm] at h
      cases ht : terminal_checks b1 with
      | some o => simp [ht] at h
      | none =>
        simp only [ht, Iter.again.injEq] at h
        exact ⟨m, s, b1, rfl, hm, ht, h.symm⟩

theorem loop_body_exit_elim {σ : Type} {pX pO : Producer σ} {st : Loop σ} {o : Outcome}
    {b : Board} {k : Nat} (h : loop_body pX pO st = .exit o b k) :
    (request pX pO st = .done ∧ o = .no_move ∧ b = st.board ∧ k = st.move_count) ∨
    ∃ m s, request pX pO st = .yielded m s ∧
      st.board.make_move m.row m.col m.symbol = some b ∧ terminal_checks b = some o ∧
      k = st.move_count + 1 := by
  cases hreq : request pX pO st with
  | no_return => simp [loop_body, hreq] at h
  | done =>
    left
    simp only [loop_body, hreq, Iter.exit.injEq] at h
    exact ⟨rfl, h.1.symm, h.2.1.symm, h.2.2.symm⟩
  | yielded m s =>
    right
    cases hm : st.board.make_move m.row m.col m.symbol with
    | none => simp [loop_body, hreq, hm] at h
    | some b1 =>
      rw [loop_body_board pX pO st m s b1 hreq hm] at h
      cases ht : terminal_checks b1 with
      | none => simp [ht] at h
      | some o1 =>
        simp only [ht, Iter.exit.injEq] at h
        obtain ⟨rfl, rfl, rfl⟩ := h
        exact ⟨m, s, rfl, hm, ht, rfl⟩

theorem run_some_elim {σ : Type} (pX pO : Producer σ) (fuel : Nat) :
    ∀ (st0 : Loop σ) (o : Outcome) (b : Board) (k : Nat),
      run pX pO fuel st0 = some (o, b, k) →
      ∃ n st, loop_head pX pO st0 n = some st ∧ loop_body pX pO st = .exit o b k := by
  induction fuel with
  | zero => intro st0 o b k h; simp [run] at h
  | succ f ih =>
    intro st0 o b k h
    simp only [run] at h
    cases hb : loop_body pX pO st0 with
    | again st1 =>
      simp only [hb] at h
      obtain ⟨n, st, hn, hst⟩ := ih st1 o b k h
      refine ⟨n + 1, st, ?_, hst⟩
      rw [loop_head_front, hb]
      exact hn
    | exit o1 b1 k1 =>
      simp only [hb, Option.some.injEq, Prod.mk.injEq] at h
      obtain ⟨rfl, rfl, rfl⟩ := h
      exact ⟨0, st0, rfl, hb⟩
    | undefined => simp [hb] at h

theorem loop_head_player {σ : Type} (pX pO : Producer σ) (sX sO : σ) :
    ∀ n st, loop_head pX pO (main_init sX sO) n = some st →
      st.current_player = (if n % 2 = 0 then 'X' else 'O') ∧ st.move_count = n := by
  intro n
  induction n with
  | zero =>
    intro st h
    simp only [loop_head, Option.some.injEq] at h
    subst h
    exact ⟨rfl, rfl⟩
  | succ n ih =>
    intro st1 h
    obtain ⟨st, hst, hb⟩ := (loop_head_succ pX pO _ n st1).1 h
    obtain ⟨hp, hc⟩ := ih st hst
    obtain ⟨m, s, b1, -, -, -, rfl⟩ := loop_body_again_elim hb
    simp only [hp, hc, and_true]
    rcases Nat.mod_two_eq_zero_or_one n with h0 | h0
    · have : (n + 1) % 2 = 1 := by omega
      simp [h0, this]
    · have : (n + 1) % 2 = 0 := by omega
      simp [h0, this]

theorem count_put_symbol (b : Board) (i j : Fin 3) (s t : Char) (h : b.grid i j = ' ')
    (ht : t ≠ ' ') :
    (b.put i j s).count t = b.count t + (if t = s then 1 else 0) := by
  unfold Board.count
  by_cases hts : t = s
  · subst hts
    have hset : (Finset.univ.filter fun p : Fin 3 × Fin 3 => (b.put i j t).grid p.1 p.2 = t) =
        insert (i, j) (Finset.univ.filter fun p : Fin 3 × Fin 3 => b.grid p.1 p.2 = t) := by
      ext ⟨i1, j1⟩
      simp only [Finset.mem_filter, Finset.mem_univ, true_and, Finset.mem_insert,
        Prod.mk.injEq, put_grid]
      by_cases hij : i1 = i ∧ j1 = j
      · simp [hij]
      · simp [hij]
    rw [hset, Finset.card_insert_of_not_mem]
    · simp
    · simp only [Finset.mem_filter, Finset.mem_univ, true_and, h]
      exact fun h1 => ht h1.symm
  · have hset : (Finset.univ.filter fun p : Fin 3 × Fin 3 => (b.put i j s).grid p.1 p.2 = t) =
        (Finset.univ.filter fun p : Fin 3 × Fin 3 => b.grid p.1 p.2 = t) := by
      ext ⟨i1, j1⟩
      simp only [Finset.mem_filter, Finset.mem_univ, true_and, put_grid]
      by_cases hij : i1 = i ∧ j1 = j
      · obtain ⟨rfl, rfl⟩ := hij
        simp only [and_self, if_true, h]
        constructor
        · intro h1; exact absurd h1.symm hts
        · intro h1; exact absurd h1.symm ht
      · simp [hij]
    rw [hset, if_neg hts, Nat.add_zero]

theorem symbols_ok_put {b : Board} (hb : b.symbols_ok) (i j : Fin 3) {s : Char}
    (hs : s = 'X' ∨ s = 'O') : (b.put i j s).symbols_ok := by
  intro i1 j1
  rw [put_grid]
  split_ifs
  · exact Or.inr hs
  · exact hb i1 j1

theorem tally_new : tally Board.new 0 := by
  refine ⟨by decide, by decide, by decide, ?_⟩
  intro i j
  exact Or.inl rfl

theorem tally_put {b : Board} {n : Nat} (h : tally b n) (i j : Fin 3)
    (hcell : b.grid i j = ' ') :
    tally (b.put i j (if n % 2 = 0 then 'X' else 'O')) (n + 1) := by
  obtain ⟨hx, ho, he, hs⟩ := h
  have hsym : (if n % 2 = 0 then 'X' else 'O') = 'X' ∨ (if n % 2 = 0 then 'X' else 'O') = 'O' := by
    split_ifs
    · exact Or.inl rfl
    · exact Or.inr rfl
  have hne : (if n % 2 = 0 then 'X' else 'O') ≠ ' ' := by split_ifs <;> decide
  have h1 := count_put_symbol b i j (if n % 2 = 0 then 'X' else 'O') 'X' hcell (by decide)
  have h2 := count_put_symbol b i j (if n % 2 = 0 then 'X' else 'O') 'O' hcell (by decide)
  have h3 := count_put b i j _ hcell hne
  refine ⟨?_, ?_, by omega, symbols_ok_put hs i j hsym⟩
  · rw [h1, hx]
    rcases Nat.mod_two_eq_zero_or_one n with h0 | h0
    · simp only [h0, if_true]; omega
    · simp only [h0]; simp; omega
  · rw [h2, ho]
    rcases Nat.mod_two_eq_zero_or_one n with h0 | h0
    · simp only [h0, if_true]; simp; omega
    · simp only [h0]; simp; omega

/-- What a returned request does to the board in a disciplined run. -/
theorem move_effect {σ : Type} {pX pO : Producer σ} {sX sO : σ}
    (hd : disciplined pX pO (main_init sX sO)) {n : Nat} {st : Loop σ} {m : Move} {s : σ}
    (hst : loop_head pX pO (main_init sX sO) n = some st)
    (hreq : request pX pO st = .yielded m s) :
    ∃ i j : Fin 3, (i.val : Int) = m.row ∧ (j.val : Int) = m.col ∧ st.board.grid i j = ' ' ∧
      m.symbol = (if n % 2 = 0 then 'X' else 'O') ∧
      st.board.make_move m.row m.col m.symbol
        = some (st.board.put i j (if n % 2 = 0 then 'X' else 'O')) := by
  obtain ⟨hsym, hv⟩ := hd n st m s hst hreq
  obtain ⟨i, j, hi, hj, hc, hm⟩ := make_move_of_valid m.symbol hv
  have hp := (loop_head_player pX pO sX sO n st hst).1
  rw [hp] at hsym
  refine ⟨i, j, hi, hj, hc, hsym, ?_⟩
  rw [hm, hsym]

theorem loop_head_tally {σ : Type} {pX pO : Producer σ} {sX sO : σ}
    (hd : disciplined pX pO (main_init sX sO)) :
    ∀ n st, loop_head pX pO (main_init sX sO) n = some st → tally st.board n := by
  intro n
  induction n with
  | zero =>
    intro st h
    simp only [loop_head, Option.some.injEq] at h
    subst h
    exact tally_new
  | succ n ih =>
    intro st1 h
    obtain ⟨st, hst, hb⟩ := (loop_head_succ pX pO _ n st1).1 h
    obtain ⟨m, s, b1, hreq, hm, -, rfl⟩ := loop_body_again_elim hb
    obtain ⟨i, j, -, -, hc, -, hm2⟩ := move_effect hd hst hreq
    rw [hm2, Option.some.injEq] at hm
    subst hm
    exact tally_put (ih st hst) i j hc

theorem sampling_disciplined (disX disO : Nat → Int) (fX fO sX sO : Nat) :
    disciplined (player_X disX fX) (player_O disO fO) (main_init sX sO) := by
  intro n st m s hst hreq
  have hp := (loop_head_player _ _ sX sO n st hst).1
  unfold request at hreq
  by_cases hx : st.current_player = 'X'
  · rw [if_pos hx] at hreq
    obtain ⟨h1, h2⟩ := player_X_yield hreq
    exact ⟨by rw [h1, hx], h2⟩
  · rw [if_neg hx] at hreq
    obtain ⟨h1, h2⟩ := player_O_yield hreq
    refine ⟨?_, h2⟩
    rw [h1, hp]
    split_ifs with h0
    · rw [hp, if_pos h0] at hx
      exact absurd rfl hx
    · rfl

theorem put_holds {b0 : Board} (hno : ∀ l ∈ lines, ¬ b0.complete l) {i j : Fin 3}
    {s t : Char} {l : Line} (hl : l ∈ lines) (ht : t ≠ ' ')
    (h : (b0.put i j s).holds l t) : t = s ∧ (i, j) ∈ l.cells := by
  obtain ⟨h1, h2, h3⟩ := h
  simp only [put_grid] at h1 h2 h3
  by_cases c1 : l.1.1 = i ∧ l.1.2 = j
  · rw [if_pos c1] at h1
    refine ⟨h1.symm, ?_⟩
    simp [Line.cells, ← c1.1, ← c1.2]
  by_cases c2 : l.2.1.1 = i ∧ l.2.1.2 = j
  · rw [if_pos c2] at h2
    refine ⟨h2.symm, ?_⟩
    simp [Line.cells, ← c2.1, ← c2.2]
  by_cases c3 : l.2.2.1 = i ∧ l.2.2.2 = j
  · rw [if_pos c3] at h3
    refine ⟨h3.symm, ?_⟩
    simp [Line.cells, ← c3.1, ← c3.2]
  rw [if_neg c1] at h1
  rw [if_neg c2] at h2
  rw [if_neg c3] at h3
  exact absurd ⟨t, ht, h1, h2, h3⟩ (hno l hl)

theorem check_winner_holds {b : Board} (h : b.check_winner ≠ ' ') :
    ∃ l ∈ lines, b.holds l b.check_winner := by
  rw [check_winner_eq_first_line] at h ⊢
  cases hf : b.first_line with
  | none => simp [hf] at h
  | some l =>
    obtain ⟨hl, ht⟩ := first_line_some hf
    exact ⟨l, hl, holds_of_test ht⟩

theorem check_winner_put {b0 : Board} (hno : ∀ l ∈ lines, ¬ b0.complete l) (i j : Fin 3)
    (s : Char) (h : (b0.put i j s).check_winner ≠ ' ') : (b0.put i j s).check_winner = s := by
  obtain ⟨l, hl, hh⟩ := check_winner_holds h
  exact (put_holds hno hl h hh).1

theorem one_symbol_of_no_line {b : Board} (hno : ∀ l ∈ lines, ¬ b.complete l) :
    b.one_symbol := by
  intro l1 h1 _ _ t1 _ ht1 _ hh1 _
  exact absurd ⟨t1, ht1, hh1⟩ (hno l1 h1)

theorem one_symbol_put {b0 : Board} (hno : ∀ l ∈ lines, ¬ b0.complete l) (i j : Fin 3)
    (s : Char) : (b0.put i j s).one_symbol := by
  intro l1 h1 l2 h2 t1 t2 ht1 ht2 hh1 hh2
  rw [(put_holds hno h1 ht1 hh1).1, (put_holds hno h2 ht2 hh2).1]

theorem head_no_line {σ : Type} (pX pO : Producer σ) (sX sO : σ) (n : Nat) (st : Loop σ)
    (h : loop_head pX pO (main_init sX sO) n = some st) :
    ∀ l ∈ lines, ¬ st.board.complete l :=
  (check_winner_blank_iff _).1 (loop_head_not_terminal pX pO sX sO n st h).1

/-- The board a disciplined run returns with: a loop-head board when the request
was declined, else a loop-head board with one Empty cell written by the mover. -/
theorem final_board {σ : Type} {pX pO : Producer σ} {sX sO : σ}
    (hd : disciplined pX pO (main_init sX sO)) {fuel : Nat} {o : Outcome} {b : Board}
    {k : Nat} (h : run pX pO fuel (main_init sX sO) = some (o, b, k)) :
    ∃ n st, loop_head pX pO (main_init sX sO) n = some st ∧
      ((request pX pO st = .done ∧ o = .no_move ∧ b = st.board ∧ k = n) ∨
        ∃ (m : Move) (s : σ) (i j : Fin 3), request pX pO st = .yielded m s ∧
          (i.val : Int) = m.row ∧ (j.val : Int) = m.col ∧
          st.board.grid i j = ' ' ∧ m.symbol = (if n % 2 = 0 then 'X' else 'O') ∧
          b = st.board.put i j (if n % 2 = 0 then 'X' else 'O') ∧
          terminal_checks b = some o ∧ k = n + 1) := by
  obtain ⟨n, st, hst, hb⟩ := run_some_elim pX pO fuel _ o b k h
  have hc := (loop_head_player pX pO sX sO n st hst).2
  refine ⟨n, st, hst, ?_⟩
  rcases loop_body_exit_elim hb with ⟨h0, h1, h2, h3⟩ | ⟨m, s, hreq, hm, ht, hk⟩
  · exact Or.inl ⟨h0, h1, h2, by rw [h3, hc]⟩
  · right
    obtain ⟨i, j, hi, hj, hcell, hsym, hm2⟩ := move_effect hd hst hreq
    rw [hm2, Option.some.injEq] at hm
    exact ⟨m, s, i, j, hreq, hi, hj, hcell, hsym, hm.symm, ht, by rw [hk, hc]⟩

theorem arises_one_symbol {σ : Type} {pX pO : Producer σ} {sX sO : σ}
    (hd : disciplined pX pO (main_init sX sO)) {b : Board}
    (h : arises pX pO (main_init sX sO) b) : b.one_symbol := by
  rcases h with ⟨n, st, hst, rfl⟩ | ⟨fuel, o, k, hrun⟩
  · exact one_symbol_of_no_line (head_no_line pX pO sX sO n st hst)
  · obtain ⟨n, st, hst, hcase⟩ := final_board hd hrun
    rcases hcase with ⟨-, -, rfl, -⟩ | ⟨m, s, i, j, -, -, -, -, -, rfl, -, -⟩
    · exact one_symbol_of_no_line (head_no_line pX pO sX sO n st hst)
    · exact one_symbol_put (head_no_line pX pO sX sO n st hst) i j _

theorem scan_lines (b : Board) : b.scan lines = b.check_winner := by
  rw [check_winner_eq_first_line]
  rfl

theorem scan_of_one_symbol {b : Board} (h : b.one_symbol) (order : List Line)
    (hp : order.Perm lines) : b.scan order = b.check_winner := by
  rw [← scan_lines]
  unfold Board.scan
  cases h1 : order.find? (fun l => decide (b.test l)) with
  | none =>
    cases h2 : lines.find? (fun l => decide (b.test l)) with
    | none => rfl
    | some l2 =>
      exfalso
      have hm := List.mem_of_find?_eq_some h2
      have ht := List.find?_some h2
      rw [List.find?_eq_none] at h1
      exact h1 l2 (hp.mem_iff.2 hm) ht
  | some l1 =>
    have hm1 := hp.mem_iff.1 (List.mem_of_find?_eq_some h1)
    have ht1 : b.test l1 := by simpa using List.find?_some h1
    cases h2 : lines.find? (fun l => decide (b.test l)) with
    | none =>
      exfalso
      rw [List.find?_eq_none] at h2
      exact h2 l1 hm1 (by simpa using ht1)
    | some l2 =>
      have hm2 := List.mem_of_find?_eq_some h2
      have ht2 : b.test l2 := by simpa using List.find?_some h2
      exact h l1 hm1 l2 hm2 _ _ ht1.1 ht2.1 (holds_of_test ht1) (holds_of_test ht2)

theorem sampling_never_done (disX disO : Nat → Int) (fX fO : Nat) (st : Loop Nat) :
    request (player_X disX fX) (player_O disO fO) st ≠ .done := by
  unfold request player_X player_O
  split_ifs
  · cases sample_loop st.board disX fX st.coroutine_X with
    | none => simp
    | some r => simp
  · cases sample_loop st.board disO fO st.coroutine_O with
    | none => simp
    | some r => simp

theorem winner_of_checks {b : Board} {c : Char} (h : terminal_checks b = some (.winner c)) :
    c = b.check_winner ∧ b.check_winner ≠ ' ' := by
  rcases terminal_checks_some h with ⟨h1, h2⟩ | ⟨h1, -, -⟩
  · simp only [Outcome.winner.injEq] at h1
    exact ⟨h1, h2⟩
  · exact Outcome.noConfusion h1

/-- C18: when a run with the two sampling producers returns with a winner, the
reported symbol is the symbol of the move applied last, which is the symbol of the
player whose turn it was; it is not the other player's symbol, and the board
before that move had no complete line. -/
theorem winner_is_last_mover (disX disO : Nat → Int) (fX fO sX sO fuel : Nat) (c : Char)
    (b : Board) (k : Nat)
    (h : run (player_X disX fX) (player_O disO fO) fuel (main_init sX sO)
      = some (.winner c, b, k)) :
    ∃ n st m s, k = n + 1 ∧
      loop_head (player_X disX fX) (player_O disO fO) (main_init sX sO) n = some st ∧
      request (player_X disX fX) (player_O disO fO) st = .yielded m s ∧
      st.board.make_move m.row m.col m.symbol = some b ∧
      c = m.symbol ∧ c = st.current_player ∧ c ≠ other m.symbol ∧
      (∀ l ∈ lines, ¬ st.board.complete l) := by
  have hd := sampling_disciplined disX disO fX fO sX sO
  obtain ⟨n, st, hst, hcase⟩ := final_board hd h
  rcases hcase with ⟨-, h1, -, -⟩ | ⟨m, s, i, j, hreq, hi, hj, hcell, hsym, hb, ht, hk⟩
  · exact Outcome.noConfusion h1
  · have hno := head_no_line _ _ sX sO n st hst
    obtain ⟨hc, hne⟩ := winner_of_checks ht
    have hcw : b.check_winner = (if n % 2 = 0 then 'X' else 'O') := by
      rw [hb] at hne ⊢
      exact check_winner_put hno i j _ hne
    have hcm : c = m.symbol := by rw [hc, hcw, hsym]
    have hxo : m.symbol = 'X' ∨ m.symbol = 'O' := by
      rw [hsym]; split_ifs
      · exact Or.inl rfl
      · exact Or.inr rfl
    refine ⟨n, st, m, s, hk, hst, hreq, ?_, hcm, ?_, ?_, hno⟩
    · rw [← hi, ← hj, make_move_fin, hb, hsym]
    · rw [hcm, hsym, (loop_head_player _ _ sX sO n st hst).1]
    · rw [hcm]
      exact fun h0 => (other_ne m.symbol hxo).1 h0.symm

set_option maxRecDepth 100000 in
theorem winner_is_last_mover_witness :
    ∃ n st m s, 5 = n + 1 ∧
      loop_head (player_X (replay [0, 0, 0, 1, 0, 2]) 1) (player_O (replay [1, 0, 1, 1]) 1)
        (main_init 0 0) n = some st ∧
      request (player_X (replay [0, 0, 0, 1, 0, 2]) 1) (player_O (replay [1, 0, 1, 1]) 1) st
        = .yielded m s ∧
      st.board.make_move m.row m.col m.symbol
        = some (Board.ofRows 'X' 'X' 'X' 'O' 'O' ' ' ' ' ' ' ' ') ∧
      'X' = m.symbol ∧ 'X' = st.current_player ∧ 'X' ≠ other m.symbol ∧
      (∀ l ∈ lines, ¬ st.board.complete l) :=
  winner_is_last_mover (replay [0, 0, 0, 1, 0, 2]) (replay [1, 0, 1, 1]) 1 1 0 0 5 'X'
    (Board.ofRows 'X' 'X' 'X' 'O' 'O' ' ' ' ' ' ' ' ') 5
    (run_eq_of_view _ _ 5 _ _ _ _ (by decide) 5 (le_refl 5))

/-- C19: on every board that arises in a run with the two sampling producers, X
and O never both hold a complete line, all complete lines are held by one symbol,
and scanning the eight lines in any order gives the value `check_winner`
returns. -/
theorem never_both_symbols (disX disO : Nat → Int) (fX fO sX sO : Nat) (b : Board)
    (h : arises (player_X disX fX) (player_O disO fO) (main_init sX sO) b) :
    (¬ ∃ l1 ∈ lines, ∃ l2 ∈ lines, b.holds l1 'X' ∧ b.holds l2 'O') ∧
    (∀ l1 ∈ lines, ∀ l2 ∈ lines, ∀ t1 t2 : Char, t1 ≠ ' ' → t2 ≠ ' ' →
      b.holds l1 t1 → b.holds l2 t2 → t1 = t2) ∧
    (∀ order : List Line, order.Perm lines → b.scan order = b.check_winner) := by
  have hone := arises_one_symbol (sampling_disciplined disX disO fX fO sX sO) h
  refine ⟨?_, hone, fun order hp => scan_of_one_symbol hone order hp⟩
  rintro ⟨l1, h1, l2, h2, hx, ho⟩
  exact absurd (hone l1 h1 l2 h2 'X' 'O' (by decide) (by decide) hx ho) (by decide)

set_option maxRecDepth 100000 in
theorem never_both_symbols_witness :
    (¬ ∃ l1 ∈ lines, ∃ l2 ∈ lines,
      (Board.ofRows 'X' 'X' 'X' 'O' 'O' ' ' ' ' ' ' ' ').holds l1 'X' ∧
      (Board.ofRows 'X' 'X' 'X' 'O' 'O' ' ' ' ' ' ' ' ').holds l2 'O') ∧
    (∀ l1 ∈ lines, ∀ l2 ∈ lines, ∀ t1 t2 : Char, t1 ≠ ' ' → t2 ≠ ' ' →
      (Board.ofRows 'X' 'X' 'X' 'O' 'O' ' ' ' ' ' ' ' ').holds l1 t1 →
      (Board.ofRows 'X' 'X' 'X' 'O' 'O' ' ' ' ' ' ' ' ').holds l2 t2 → t1 = t2) ∧
    (∀ order : List Line, order.Perm lines →
      (Board.ofRows 'X' 'X' 'X' 'O' 'O' ' ' ' ' ' ' ' ').scan order
        = (Board.ofRows 'X' 'X' 'X' 'O' 'O' ' ' ' ' ' ' ' ').check_winner) :=
  never_both_symbols (replay [0, 0, 0, 1, 0, 2]) (replay [1, 0, 1, 1]) 1 1 0 0
    (Board.ofRows 'X' 'X' 'X' 'O' 'O' ' ' ' ' ' ' ' ')
    (Or.inr ⟨5, .winner 'X', 5, run_eq_of_view _ _ 5 _ _ _ _ (by decide) 5 (le_refl 5)⟩)

/-! ## Counting the cells of complete lines -/

set_option maxRecDepth 100000 in
theorem line_cells_card : ∀ l ∈ lines, l.cells.card = 3 := by decide

set_option maxRecDepth 1000000 in
set_option maxHeartbeats 4000000 in
theorem three_lines_cover :
    ∀ l1 ∈ lines, ∀ l2 ∈ lines, ∀ l3 ∈ lines, l1 ≠ l2 → l1 ≠ l3 → l2 ≠ l3 →
      6 ≤ (l1.cells ∪ l2.cells ∪ l3.cells).card := by decide

theorem holds_subset {b : Board} {l : Line} {t : Char} (h : b.holds l t) :
    l.cells ⊆ Finset.univ.filter fun p : Fin 3 × Fin 3 => b.grid p.1 p.2 = t := by
  intro p hp
  simp only [Line.cells, Finset.mem_insert, Finset.mem_singleton] at hp
  simp only [Finset.mem_filter, Finset.mem_univ, true_and]
  rcases hp with rfl | rfl | rfl
  · exact h.1
  · exact h.2.1
  · exact h.2.2

theorem holds_count {b : Board} {l : Line} {t : Char} (hl : l ∈ lines) (h : b.holds l t) :
    3 ≤ b.count t := by
  rw [← line_cells_card l hl]
  exact Finset.card_le_card (holds_subset h)

theorem three_holds_count {b : Board} {l1 l2 l3 : Line} {t : Char}
    (m1 : l1 ∈ lines) (m2 : l2 ∈ lines) (m3 : l3 ∈ lines)
    (n12 : l1 ≠ l2) (n13 : l1 ≠ l3) (n23 : l2 ≠ l3)
    (h1 : b.holds l1 t) (h2 : b.holds l2 t) (h3 : b.holds l3 t) : 6 ≤ b.count t := by
  refine le_trans (three_lines_cover l1 m1 l2 m2 l3 m3 n12 n13 n23) ?_
  exact Finset.card_le_card
    (Finset.union_subset (Finset.union_subset (holds_subset h1) (holds_subset h2))
      (holds_subset h3))

theorem holds_symbol {b : Board} (hb : b.symbols_ok) {l : Line} {t : Char} (ht : t ≠ ' ')
    (h : b.holds l t) : t = 'X' ∨ t = 'O' := by
  rcases hb l.1.1 l.1.2 with h0 | h0 | h0
  · exact absurd (h.1.symm.trans h0) ht
  · exact Or.inl (h.1.symm.trans h0)
  · exact Or.inr (h.1.symm.trans h0)

theorem tally_winner {b : Board} {k : Nat} (h : tally b k) (hw : b.check_winner ≠ ' ') :
    (b.check_winner = 'X' ∧ 3 ≤ (k + 1) / 2) ∨ (b.check_winner = 'O' ∧ 3 ≤ k / 2) := by
  obtain ⟨l, hl, hh⟩ := check_winner_holds hw
  have hc := holds_count hl hh
  rcases holds_symbol h.2.2.2 hw hh with hx | ho
  · left
    rw [hx] at hc
    exact ⟨hx, by rw [← h.1]; exact hc⟩
  · right
    rw [ho] at hc
    exact ⟨ho, by rw [← h.2.1]; exact hc⟩

theorem arises_tally {σ : Type} {pX pO : Producer σ} {sX sO : σ}
    (hd : disciplined pX pO (main_init sX sO)) {b : Board}
    (h : arises pX pO (main_init sX sO) b) : ∃ k, k ≤ 9 ∧ tally b k := by
  rcases h with ⟨n, st, hst, rfl⟩ | ⟨fuel, o, k, hrun⟩
  · have ht := loop_head_tally hd n st hst
    exact ⟨n, by have := ht.2.2.1; omega, ht⟩
  · obtain ⟨n, st, hst, hcase⟩ := final_board hd hrun
    have ht := loop_head_tally hd n st hst
    rcases hcase with ⟨-, -, rfl, -⟩ | ⟨m, s, i, j, -, -, -, hcell, -, rfl, -, -⟩
    · exact ⟨n, by have := ht.2.2.1; omega, ht⟩
    · have ht1 := tally_put ht i j hcell
      exact ⟨n + 1, by have := ht1.2.2.1; omega, ht1⟩

theorem at_most_two_lines {b : Board} {k : Nat} (hk : k ≤ 9) (ht : tally b k)
    (hone : b.one_symbol) :
    ∀ l1 ∈ lines, ∀ l2 ∈ lines, ∀ l3 ∈ lines,
      b.complete l1 → b.complete l2 → b.complete l3 → l1 = l2 ∨ l1 = l3 ∨ l2 = l3 := by
  intro l1 m1 l2 m2 l3 m3 ⟨t1, ht1, h1⟩ ⟨t2, ht2, h2⟩ ⟨t3, ht3, h3⟩
  by_contra hne
  push_neg at hne
  obtain ⟨n12, n13, n23⟩ := hne
  have e2 : t2 = t1 := hone l2 m2 l1 m1 t2 t1 ht2 ht1 h2 h1
  have e3 : t3 = t1 := hone l3 m3 l1 m1 t3 t1 ht3 ht1 h3 h1
  subst e2 e3
  have hc := three_holds_count m1 m2 m3 n12 n13 n23 h1 h2 h3
  obtain ⟨hx, ho, -, hs⟩ := ht
  rcases holds_symbol hs ht1 h1 with e | e
  · rw [e, hx] at hc; omega
  · rw [e, ho] at hc; omega

/-! ## Number of complete lines and length of a game -/

set_option maxRecDepth 100000 in
/-- C17 (as stated, refuted): with X sampling (0,0), (0,1), (1,2), (2,2), (0,2)
and O sampling (1,0), (1,1), (2,0), (2,1), every sample is accepted at once, the
ninth move completes row 0 and column 2 together, and the run returns with a
board on which two different lines are complete. -/
theorem two_lines_completed_at_once :
    run (player_X (replay [0, 0, 0, 1, 1, 2, 2, 2, 0, 2]) 1)
        (player_O (replay [1, 0, 1, 1, 2, 0, 2, 1]) 1) 9 (main_init 0 0)
      = some (.winner 'X', Board.ofRows 'X' 'X' 'X' 'O' 'O' 'X' 'O' 'O' 'X', 9) ∧
    ¬ (∀ l1 ∈ lines, ∀ l2 ∈ lines,
        (Board.ofRows 'X' 'X' 'X' 'O' 'O' 'X' 'O' 'O' 'X').complete l1 →
        (Board.ofRows 'X' 'X' 'X' 'O' 'O' 'X' 'O' 'O' 'X').complete l2 → l1 = l2) := by
  refine ⟨run_eq_of_view _ _ 9 _ _ _ _ (by decide) 9 (le_refl 9), ?_⟩
  intro h
  have h1 := h ((0, 0), (0, 1), (0, 2)) (by decide) ((0, 2), (1, 2), (2, 2)) (by decide)
    ⟨'X', by decide, by decide⟩ ⟨'X', by decide, by decide⟩
  exact absurd h1 (by decide)

/-- C17 (amended): in every run with the two sampling producers no line is
complete on the board at a loop head, and on every board that arises, the final
one included, at most two of the eight lines are complete and all complete lines
are held by the same symbol. -/
theorem at_most_two_complete_lines (disX disO : Nat → Int) (fX fO sX sO : Nat) :
    (∀ n st, loop_head (player_X disX fX) (player_O disO fO) (main_init sX sO) n = some st →
      ∀ l ∈ lines, ¬ st.board.complete l) ∧
    (∀ b, arises (player_X disX fX) (player_O disO fO) (main_init sX sO) b →
      (∀ l1 ∈ lines, ∀ l2 ∈ lines, ∀ l3 ∈ lines,
        b.complete l1 → b.complete l2 → b.complete l3 → l1 = l2 ∨ l1 = l3 ∨ l2 = l3) ∧
      (∀ l1 ∈ lines, ∀ l2 ∈ lines, ∀ t1 t2 : Char, t1 ≠ ' ' → t2 ≠ ' ' →
        b.holds l1 t1 → b.holds l2 t2 → t1 = t2)) := by
  have hd := sampling_disciplined disX disO fX fO sX sO
  refine ⟨fun n st hst => head_no_line _ _ sX sO n st hst, fun b hb => ?_⟩
  obtain ⟨k, hk, ht⟩ := arises_tally hd hb
  have hone := arises_one_symbol hd hb
  exact ⟨at_most_two_lines hk ht hone, hone⟩

set_option maxRecDepth 100000 in
theorem at_most_two_complete_lines_witness :
    (∀ l1 ∈ lines, ∀ l2 ∈ lines, ∀ l3 ∈ lines,
      (Board.ofRows 'X' 'X' 'X' 'O' 'O' 'X' 'O' 'O' 'X').complete l1 →
      (Board.ofRows 'X' 'X' 'X' 'O' 'O' 'X' 'O' 'O' 'X').complete l2 →
      (Board.ofRows 'X' 'X' 'X' 'O' 'O' 'X' 'O' 'O' 'X').complete l3 →
      l1 = l2 ∨ l1 = l3 ∨ l2 = l3) ∧
    (∀ l1 ∈ lines, ∀ l2 ∈ lines, ∀ t1 t2 : Char, t1 ≠ ' ' → t2 ≠ ' ' →
      (Board.ofRows 'X' 'X' 'X' 'O' 'O' 'X' 'O' 'O' 'X').holds l1 t1 →
      (Board.ofRows 'X' 'X' 'X' 'O' 'O' 'X' 'O' 'O' 'X').holds l2 t2 → t1 = t2) :=
  (at_most_two_complete_lines (replay [0, 0, 0, 1, 1, 2, 2, 2, 0, 2])
      (replay [1, 0, 1, 1, 2, 0, 2, 1]) 1 1 0 0).2
    (Board.ofRows 'X' 'X' 'X' 'O' 'O' 'X' 'O' 'O' 'X')
    (Or.inr ⟨9, .winner 'X', 9, run_eq_of_view _ _ 9 _ _ _ _ (by decide) 9 (le_refl 9)⟩)

/-- C20: in every run with the two sampling producers `check_winner` is `' '`
after each of the first four moves, and a run that returns does so with
`move_count` between 5 and 9: with winner X only at 5, 7 or 9, with winner O only
at 6 or 8, with a draw only at 9. -/
theorem game_ends_between_five_and_nine (disX disO : Nat → Int) (fX fO sX sO : Nat) :
    (∀ n st m s b1, n < 4 →
      loop_head (player_X disX fX) (player_O disO fO) (main_init sX sO) n = some st →
      request (player_X disX fX) (player_O disO fO) st = .yielded m s →
      st.board.make_move m.row m.col m.symbol = some b1 → b1.check_winner = ' ') ∧
    (∀ fuel o b k,
      run (player_X disX fX) (player_O disO fO) fuel (main_init sX sO) = some (o, b, k) →
      5 ≤ k ∧ k ≤ 9 ∧
      ((o = .winner 'X' ∧ (k = 5 ∨ k = 7 ∨ k = 9)) ∨
        (o = .winner 'O' ∧ (k = 6 ∨ k = 8)) ∨ (o = .draw ∧ k = 9))) := by
  have hd := sampling_disciplined disX disO fX fO sX sO
  constructor
  · intro n st m s b1 hn hst hreq hm
    obtain ⟨i, j, -, -, hcell, -, hm2⟩ := move_effect hd hst hreq
    rw [hm2, Option.some.injEq] at hm
    subst hm
    have ht := tally_put (loop_head_tally hd n st hst) i j hcell
    by_contra hw
    rcases tally_winner ht hw with ⟨-, h3⟩ | ⟨-, h3⟩ <;> omega
  · intro fuel o b k hrun
    obtain ⟨n, st, hst, hcase⟩ := final_board hd hrun
    rcases hcase with ⟨h0, -, -, -⟩ | ⟨m, s, i, j, -, -, -, hcell, -, hb, hchk, hk⟩
    · exact absurd h0 (sampling_never_done disX disO fX fO st)
    · have ht := tally_put (loop_head_tally hd n st hst) i j hcell
      rw [← hb] at ht
      have h9 := ht.2.2.1
      rcases terminal_checks_some hchk with ⟨ho, hw⟩ | ⟨ho, -, hfull⟩
      · have hsym : b.check_winner = (if n % 2 = 0 then 'X' else 'O') := by
          rw [hb] at hw ⊢
          exact check_winner_put (head_no_line _ _ sX sO n st hst) i j _ hw
        rcases tally_winner ht hw with ⟨hx, h3⟩ | ⟨hx, h3⟩
        · have hpar : n % 2 = 0 := by
            by_contra hp
            rw [hx, if_neg hp] at hsym
            exact absurd hsym (by decide)
          rw [hx] at ho
          refine ⟨by omega, by omega, Or.inl ⟨ho, by omega⟩⟩
        · have hpar : n % 2 ≠ 0 := by
            intro hp
            rw [hx, if_pos hp] at hsym
            exact absurd hsym (by decide)
          rw [hx] at ho
          refine ⟨by omega, by omega, Or.inr (Or.inl ⟨ho, by omega⟩)⟩
      · have h0 := (is_full_iff_count b).1 hfull
        refine ⟨by omega, by omega, Or.inr (Or.inr ⟨ho, by omega⟩)⟩

set_option maxRecDepth 100000 in
theorem game_ends_between_five_and_nine_witness :
    5 ≤ 5 ∧ 5 ≤ 9 ∧
      ((Outcome.winner 'X' = .winner 'X' ∧ (5 = 5 ∨ 5 = 7 ∨ 5 = 9)) ∨
        (Outcome.winner 'X' = .winner 'O' ∧ (5 = 6 ∨ 5 = 8)) ∨
        (Outcome.winner 'X' = .draw ∧ 5 = 9)) :=
  (game_ends_between_five_and_nine (replay [0, 0, 0, 1, 0, 2]) (replay [1, 0, 1, 1])
      1 1 0 0).2 5 (.winner 'X') (Board.ofRows 'X' 'X' 'X' 'O' 'O' ' ' ' ' ' ' ' ') 5
    (run_eq_of_view _ _ 5 _ _ _ _ (by decide) 5 (le_refl 5))

end TicTacToe
